import Mathlib

/-!
# Verification of the couchdb driver's streaming attachment encoder

This development embeds, at the byte (character) level, the streaming JSON
rewriter `copyWithAttachments`, the multipart assembler
`createMultipart`/`multipartAttachments`, the attachment extractor
`extractAttachments`/`interfaceToAttachments`, the stub builder
`attachmentStubs`, and the tail of `db.Put` from `db.go`, together with the
relevant behaviour of Go's `encoding/json` streaming decoder
(`Decoder.Token`, `Decoder.Decode` into `json.RawMessage`) that the rewriter
is built on.  Theorems at the end settle the specification's claims about
these functions.
-/

namespace Couch

/-! ## Characters and whitespace (Go `encoding/json` `isSpace`) -/

def isWS (c : Char) : Bool :=
  c = ' ' || c = '\t' || c = '\n' || c = '\r'

def skipWS : List Char → List Char
  | [] => []
  | c :: r => if isWS c then skipWS r else c :: r

theorem skipWS_length_le : ∀ l : List Char, (skipWS l).length ≤ l.length := by
  intro l
  induction l with
  | nil => simp [skipWS]
  | cons c r ih =>
    simp only [skipWS]
    split
    · exact Nat.le_succ_of_le ih
    · simp

/-- Every list splits as an all-whitespace prefix followed by `skipWS` of it. -/
theorem skipWS_decomp : ∀ l : List Char,
    ∃ w, l = w ++ skipWS l ∧ (∀ c ∈ w, isWS c = true) := by
  intro l
  induction l with
  | nil => exact ⟨[], by simp [skipWS]⟩
  | cons c r ih =>
    by_cases h : isWS c = true
    · obtain ⟨w, hw, hws⟩ := ih
      refine ⟨c :: w, ?_, ?_⟩
      · simp [skipWS, h, ← hw]
      · intro x hx
        rcases List.mem_cons.mp hx with hx | hx
        · exact hx ▸ h
        · exact hws x hx
    · exact ⟨[], by simp [skipWS, h]⟩

theorem skipWS_head_not_ws : ∀ l : List Char, ∀ c r,
    skipWS l = c :: r → isWS c = false := by
  intro l
  induction l with
  | nil => intro c r h; simp [skipWS] at h
  | cons x xs ih =>
    intro c r h
    simp only [skipWS] at h
    split at h
    · exact ih c r h
    · cases h
      simpa using ‹¬ isWS x = true›

/-- `skipWS` over an all-whitespace prefix. -/
theorem skipWS_append_ws (w l : List Char) (hw : ∀ c ∈ w, isWS c = true) :
    skipWS (w ++ l) = skipWS l := by
  induction w with
  | nil => simp
  | cons c r ih =>
    have hc : isWS c = true := hw c (by simp)
    simp only [List.cons_append, skipWS, hc, if_true]
    exact ih (fun x hx => hw x (by simp [hx]))

theorem skipWS_not_ws (l : List Char) (c : Char) (r : List Char)
    (h : l = c :: r) (hc : isWS c = false) : skipWS l = l := by
  subst h; simp [skipWS, hc]

/-! ## Go string literal scanning (`encoding/json` scanner + `unquote`)

`scanStr l` expects `l` to start *after* the opening quote.  It returns
`(decoded, consumed, rest)` where `consumed` is the raw character span up to
and including the closing quote, `decoded` the decoded key, and
`l = consumed ++ rest`.  Escape handling follows Go's `unquoteBytes`:
`\" \\ \/ \b \f \n \r \t \uXXXX`, with surrogate pairs combined and
unpaired surrogates replaced by U+FFFD.  Characters below 0x20 are a
syntax error, as in Go's scanner. -/

def hexVal (c : Char) : Option Nat :=
  if '0' ≤ c ∧ c ≤ '9' then some (c.toNat - '0'.toNat)
  else if 'a' ≤ c ∧ c ≤ 'f' then some (c.toNat - 'a'.toNat + 10)
  else if 'A' ≤ c ∧ c ≤ 'F' then some (c.toNat - 'A'.toNat + 10)
  else none

def isHighSur (n : Nat) : Bool := 0xD800 ≤ n && n ≤ 0xDBFF
def isLowSur (n : Nat) : Bool := 0xDC00 ≤ n && n ≤ 0xDFFF

/-- Decode a `\uXXXX` payload (4 hex chars already extracted). -/
def hex4 (a b c d : Char) : Option Nat := do
  let x ← hexVal a
  let y ← hexVal b
  let z ← hexVal c
  let w ← hexVal d
  pure (((x * 16 + y) * 16 + z) * 16 + w)

def combineSur (hi lo : Nat) : Nat :=
  0x10000 + (hi - 0xD800) * 0x400 + (lo - 0xDC00)

def escChar (c : Char) : Option Char :=
  if c = '"' then some '"'
  else if c = '\\' then some '\\'
  else if c = '/' then some '/'
  else if c = 'b' then some (Char.ofNat 8)
  else if c = 'f' then some (Char.ofNat 12)
  else if c = 'n' then some '\n'
  else if c = 'r' then some '\r'
  else if c = 't' then some '\t'
  else none

/-- Probe for a following `\uXXXX` escape (used for surrogate pairing):
the payload when the input starts with a well-formed `\uXXXX`. -/
def uProbe : List Char → Option Nat
  | b1 :: rest1 =>
    if b1 = '\\' then
      match rest1 with
      | b2 :: rest2 =>
        if b2 = 'u' then
          match rest2 with
          | a :: b :: c :: d :: _ => hex4 a b c d
          | _ => none
        else none
      | [] => none
    else none
  | [] => none

/-- Resolve a `\uXXXX` escape with payload `n`, given the remaining input
`r3`.  Returns the decoded character and the number of *additional* input
characters consumed (6 when a surrogate pair was completed, else 0),
following Go's `unquoteBytes`. -/
def uEscape (n : Nat) (r3 : List Char) : Char × Nat :=
  if isHighSur n then
    match uProbe r3 with
    | some m =>
      if isLowSur m then (Char.ofNat (combineSur n m), 6)
      else (Char.ofNat 0xFFFD, 0)
    | none => (Char.ofNat 0xFFFD, 0)
  else if isLowSur n then (Char.ofNat 0xFFFD, 0)
  else (Char.ofNat n, 0)

/-- One scanning step inside a string body (after the opening quote).
Returns `none` on a syntax error; `some (none, 1)` at the closing quote;
`some (some ch, k)` when the next `k` input characters decode to `ch`. -/
def strStep : List Char → Option (Option Char × Nat)
  | [] => none
  | c :: r =>
    if c = '"' then some (none, 1)
    else if c = '\\' then
      match r with
      | [] => none
      | e :: r2 =>
        if e = 'u' then
          match r2 with
          | a :: b :: cc :: d :: r3 =>
            match hex4 a b cc d with
            | none => none
            | some n => some (some (uEscape n r3).1, 6 + (uEscape n r3).2)
          | _ => none
        else
          match escChar e with
          | none => none
          | some ch => some (some ch, 2)
    else if c.toNat < 0x20 then none
    else some (some c, 1)

theorem strStep_pos : ∀ l o k, strStep l = some (o, k) → 1 ≤ k ∧ l ≠ [] := by
  intro l o k h
  match l with
  | [] => simp [strStep] at h
  | c :: r =>
    refine ⟨?_, by simp⟩
    simp only [strStep] at h
    by_cases h1 : c = '"'
    · simp [h1] at h; omega
    by_cases h2 : c = '\\'
    · simp [h1, h2] at h
      match r with
      | [] => simp at h
      | e :: r2 =>
        by_cases h3 : e = 'u'
        · simp [h3] at h
          match r2 with
          | [] | [_] | [_, _] | [_, _, _] => simp at h
          | a :: b :: cc :: d :: r3 =>
            match hh : hex4 a b cc d with
            | none => simp [hh] at h
            | some n => simp [hh] at h; omega
        · simp [h3] at h
          match he : escChar e with
          | none => simp [he] at h
          | some ch => simp [he] at h; omega
    by_cases h4 : c.toNat < 0x20
    · simp [h1, h2, h4] at h
    · simp [h1, h2, h4] at h; omega

/-- Scan a Go JSON string body, starting after the opening quote.  Returns
`(decoded, consumed, rest)`: the decoded characters, the raw consumed span
up to and including the closing quote, and the remaining input.  Fueled;
`scanStr` below supplies sufficient fuel. -/
def scanStrF : Nat → List Char → Option (List Char × List Char × List Char)
  | 0, _ => none
  | f+1, l =>
    match strStep l with
    | none => none
    | some (none, _) => some ([], l.take 1, l.drop 1)
    | some (some ch, k) =>
      match scanStrF f (l.drop k) with
      | none => none
      | some (dec, cons, rest) => some (ch :: dec, l.take k ++ cons, rest)

def scanStr (l : List Char) : Option (List Char × List Char × List Char) :=
  scanStrF (l.length + 1) l

theorem scanStrF_split : ∀ f l dec cons rest,
    scanStrF f l = some (dec, cons, rest) → l = cons ++ rest ∧ cons ≠ [] := by
  intro f
  induction f with
  | zero => intro l dec cons rest hs; simp [scanStrF] at hs
  | succ f ih =>
    intro l dec cons rest hs
    simp only [scanStrF] at hs
    match hstep : strStep l with
    | none => rw [hstep] at hs; simp at hs
    | some (none, k) =>
      rw [hstep] at hs
      simp only [Option.some.injEq, Prod.mk.injEq] at hs
      obtain ⟨h1, h2, h3⟩ := hs
      have hne := (strStep_pos l _ _ hstep).2
      subst h2 h3
      refine ⟨(List.take_append_drop 1 l).symm, ?_⟩
      cases l with
      | nil => exact absurd rfl hne
      | cons c r => simp
    | some (some ch, k) =>
      rw [hstep] at hs
      dsimp only at hs
      cases hrec : scanStrF f (l.drop k) with
      | none => rw [hrec] at hs; simp at hs
      | some x =>
        obtain ⟨dec2, cons2, rest2⟩ := x
        rw [hrec] at hs
        simp only [Option.some.injEq, Prod.mk.injEq] at hs
        obtain ⟨h1, h2, h3⟩ := hs
        obtain ⟨hsplit, hne⟩ := ih (l.drop k) dec2 cons2 rest2 hrec
        have hp := strStep_pos l _ _ hstep
        subst h2 h3
        constructor
        · rw [List.append_assoc, ← hsplit]
          exact (List.take_append_drop k l).symm
        · intro hcontra
          exact hne (List.append_eq_nil.mp hcontra).2

/-! ## Go JSON number scanning

Faithful to Go's scanner states `stateNeg/state0/state1/stateDot/stateE…`:
maximal munch, with the quirk that a leading `0` is its own integer part
(`01` scans as `0` leaving `1`), fraction and exponent require at least one
digit, and a complete number is terminated by *any* non-continuing
character. -/

def isDigit (c : Char) : Bool := '0' ≤ c && c ≤ '9'

/-- Maximal digit prefix. -/
def digitSpan : List Char → List Char × List Char
  | [] => ([], [])
  | c :: r =>
    if isDigit c then
      let p := digitSpan r
      (c :: p.1, p.2)
    else ([], c :: r)

theorem digitSpan_split : ∀ l : List Char, l = (digitSpan l).1 ++ (digitSpan l).2 := by
  intro l
  induction l with
  | nil => simp [digitSpan]
  | cons c r ih =>
    simp only [digitSpan]
    split
    · simpa using ih
    · simp

theorem digitSpan_all_digits : ∀ l : List Char, ∀ c ∈ (digitSpan l).1, isDigit c = true := by
  intro l
  induction l with
  | nil => simp [digitSpan]
  | cons c r ih =>
    simp only [digitSpan]
    split
    · intro x hx
      rcases List.mem_cons.mp hx with h | h
      · exact h ▸ ‹isDigit c = true›
      · exact ih x h
    · simp

theorem digitSpan_rest_head : ∀ l : List Char, ∀ c r,
    (digitSpan l).2 = c :: r → isDigit c = false := by
  intro l
  induction l with
  | nil => intro c r h; simp [digitSpan] at h
  | cons x xs ih =>
    intro c r h
    simp only [digitSpan] at h
    split at h
    · exact ih c r h
    · cases h; simpa using ‹¬ isDigit x = true›

/-- Digits over an all-digit prefix followed by a non-digit boundary. -/
theorem digitSpan_exact (d t : List Char) (hd : ∀ c ∈ d, isDigit c = true)
    (ht : ∀ c r, t = c :: r → isDigit c = false) :
    digitSpan (d ++ t) = (d, t) := by
  induction d with
  | nil =>
    cases t with
    | nil => simp [digitSpan]
    | cons c r => simp [digitSpan, ht c r rfl]
  | cons c d2 ih =>
    have hc : isDigit c = true := hd c (by simp)
    simp only [List.cons_append, digitSpan, hc, if_true]
    show (c :: (digitSpan (d2 ++ t)).1, (digitSpan (d2 ++ t)).2) = (c :: d2, t)
    rw [ih (fun x hx => hd x (by simp [hx]))]

/-- At least one digit required (after `.`, `e`, `e+`, `e-`). -/
def digitsReq : List Char → Option (List Char × List Char)
  | [] => none
  | c :: r => if isDigit c then some (digitSpan (c :: r)) else none

def fracPart : List Char → Option (List Char × List Char)
  | [] => some ([], [])
  | c :: r =>
    if c = '.' then (digitsReq r).map fun p => (c :: p.1, p.2)
    else some ([], c :: r)

def expPart : List Char → Option (List Char × List Char)
  | [] => some ([], [])
  | c :: r =>
    if c = 'e' ∨ c = 'E' then
      match r with
      | [] => none
      | s :: r2 =>
        if s = '+' ∨ s = '-' then (digitsReq r2).map fun p => (c :: s :: p.1, p.2)
        else (digitsReq (s :: r2)).map fun p => (c :: p.1, p.2)
    else some ([], c :: r)

def numTail (l : List Char) : Option (List Char × List Char) :=
  match fracPart l with
  | none => none
  | some (fr, r2) =>
    match expPart r2 with
    | none => none
    | some (ex, r3) => some (fr ++ ex, r3)

def numNat : List Char → Option (List Char × List Char)
  | [] => none
  | c :: r =>
    if c = '0' then (numTail r).map fun p => (c :: p.1, p.2)
    else if isDigit c then
      (numTail (digitSpan (c :: r)).2).map fun p => ((digitSpan (c :: r)).1 ++ p.1, p.2)
    else none

def scanNumber : List Char → Option (List Char × List Char)
  | [] => none
  | c :: r =>
    if c = '-' then (numNat r).map fun p => (c :: p.1, p.2)
    else numNat (c :: r)

/-! Shape of a complete scanned number span, and the two directions
relating it to `scanNumber`. -/

def IntShape (ip : List Char) : Prop :=
  ip = ['0'] ∨ ∃ c ds, ip = c :: ds ∧ isDigit c = true ∧ c ≠ '0' ∧
    ∀ x ∈ ds, isDigit x = true

def FracShape (fp : List Char) : Prop :=
  fp = [] ∨ ∃ ds, fp = '.' :: ds ∧ ds ≠ [] ∧ ∀ c ∈ ds, isDigit c = true

def ExpShape (ep : List Char) : Prop :=
  ep = [] ∨ ∃ e sg ds, (e = 'e' ∨ e = 'E') ∧ (sg = [] ∨ sg = ['+'] ∨ sg = ['-']) ∧
    ep = e :: (sg ++ ds) ∧ ds ≠ [] ∧ ∀ c ∈ ds, isDigit c = true

def NumShape (s : List Char) : Prop :=
  ∃ sgn ip fp ep, (sgn = [] ∨ sgn = ['-']) ∧ IntShape ip ∧ FracShape fp ∧
    ExpShape ep ∧ s = sgn ++ ip ++ fp ++ ep

/-- A continuation that cannot extend a complete number span. -/
def NumSafe (t : List Char) : Prop :=
  ∀ c r, t = c :: r → isDigit c = false ∧ c ≠ '.' ∧ c ≠ 'e' ∧ c ≠ 'E'

theorem digitsReq_spec (l d r : List Char) (h : digitsReq l = some (d, r)) :
    l = d ++ r ∧ d ≠ [] ∧ (∀ c ∈ d, isDigit c = true) ∧
      (∀ c rr, r = c :: rr → isDigit c = false) := by
  cases l with
  | nil => simp [digitsReq] at h
  | cons c r2 =>
    by_cases hc : isDigit c = true
    · simp only [digitsReq, hc, if_true, Option.some.injEq] at h
      have h1 : d = (digitSpan (c :: r2)).1 := by rw [h]
      have h2 : r = (digitSpan (c :: r2)).2 := by rw [h]
      subst h1 h2
      refine ⟨digitSpan_split _, ?_, digitSpan_all_digits _, digitSpan_rest_head _⟩
      simp [digitSpan, hc]
    · simp [digitsReq, hc] at h

theorem fracPart_spec (l s r : List Char) (h : fracPart l = some (s, r)) :
    l = s ++ r ∧ FracShape s := by
  cases l with
  | nil =>
    simp only [fracPart, Option.some.injEq, Prod.mk.injEq] at h
    obtain ⟨h1, h2⟩ := h
    subst h1 h2
    exact ⟨rfl, Or.inl rfl⟩
  | cons c r2 =>
    by_cases hc : c = '.'
    · simp only [fracPart, hc, if_true] at h
      match hd : digitsReq r2 with
      | none => rw [hd] at h; simp at h
      | some (d, rest) =>
        rw [hd] at h
        simp only [Option.map_some', Option.some.injEq, Prod.mk.injEq] at h
        obtain ⟨h1, h2⟩ := h
        obtain ⟨hsp, hne, hdg, _⟩ := digitsReq_spec r2 d rest hd
        subst h1 h2 hc
        exact ⟨by simp [hsp], Or.inr ⟨d, rfl, hne, hdg⟩⟩
    · simp only [fracPart, hc, if_false, Option.some.injEq, Prod.mk.injEq] at h
      obtain ⟨h1, h2⟩ := h
      subst h1
      exact ⟨by simp [h2], Or.inl rfl⟩

theorem expPart_spec (l s r : List Char) (h : expPart l = some (s, r)) :
    l = s ++ r ∧ ExpShape s := by
  cases l with
  | nil =>
    simp only [expPart, Option.some.injEq, Prod.mk.injEq] at h
    obtain ⟨h1, h2⟩ := h
    subst h1 h2
    exact ⟨rfl, Or.inl rfl⟩
  | cons c r2 =>
    by_cases hc : c = 'e' ∨ c = 'E'
    · simp only [expPart, hc, if_true] at h
      cases r2 with
      | nil => simp at h
      | cons s2 r3 =>
        by_cases hs : s2 = '+' ∨ s2 = '-'
        · simp only [hs, if_true] at h
          match hd : digitsReq r3 with
          | none => rw [hd] at h; simp at h
          | some (d, rest) =>
            rw [hd] at h
            simp only [Option.map_some', Option.some.injEq, Prod.mk.injEq] at h
            obtain ⟨h1, h2⟩ := h
            obtain ⟨hsp, hne, hdg, _⟩ := digitsReq_spec r3 d rest hd
            subst h1 h2
            refine ⟨by simp [hsp], Or.inr ⟨c, [s2], d, hc, ?_, by simp, hne, hdg⟩⟩
            rcases hs with hs | hs <;> simp [hs]
        · simp only [hs, if_false] at h
          match hd : digitsReq (s2 :: r3) with
          | none => rw [hd] at h; simp at h
          | some (d, rest) =>
            rw [hd] at h
            simp only [Option.map_some', Option.some.injEq, Prod.mk.injEq] at h
            obtain ⟨h1, h2⟩ := h
            obtain ⟨hsp, hne, hdg, _⟩ := digitsReq_spec (s2 :: r3) d rest hd
            subst h1 h2
            exact ⟨by simp [hsp], Or.inr ⟨c, [], d, hc, by simp, by simp, hne, hdg⟩⟩
    · simp only [expPart, hc, if_false, Option.some.injEq, Prod.mk.injEq] at h
      obtain ⟨h1, h2⟩ := h
      subst h1
      exact ⟨by simp [h2], Or.inl rfl⟩

theorem numTail_spec (l s r : List Char) (h : numTail l = some (s, r)) :
    l = s ++ r ∧ ∃ fp ep, FracShape fp ∧ ExpShape ep ∧ s = fp ++ ep := by
  unfold numTail at h
  match hf : fracPart l with
  | none => rw [hf] at h; simp at h
  | some (fr, r2) =>
    rw [hf] at h
    dsimp only at h
    match he : expPart r2 with
    | none => rw [he] at h; simp at h
    | some (ex, r3) =>
      rw [he] at h
      simp only [Option.some.injEq, Prod.mk.injEq] at h
      obtain ⟨h1, h2⟩ := h
      obtain ⟨hsp1, hsh1⟩ := fracPart_spec l fr r2 hf
      obtain ⟨hsp2, hsh2⟩ := expPart_spec r2 ex r3 he
      subst h1 h2
      exact ⟨by simp [hsp1, hsp2], fr, ex, hsh1, hsh2, rfl⟩

theorem numNat_spec (l s r : List Char) (h : numNat l = some (s, r)) :
    l = s ++ r ∧ ∃ ip fp ep, IntShape ip ∧ FracShape fp ∧ ExpShape ep ∧
      s = ip ++ fp ++ ep := by
  cases l with
  | nil => simp [numNat] at h
  | cons c r2 =>
    by_cases hc : c = '0'
    · simp only [numNat, hc, if_true] at h
      match ht : numTail r2 with
      | none => rw [ht] at h; simp at h
      | some (tl, r3) =>
        rw [ht] at h
        simp only [Option.map_some', Option.some.injEq, Prod.mk.injEq] at h
        obtain ⟨h1, h2⟩ := h
        obtain ⟨hsp, fp, ep, hfp, hep, htl⟩ := numTail_spec r2 tl r3 ht
        subst h1 h2 hc htl
        exact ⟨by simp [hsp], ['0'], fp, ep, Or.inl rfl, hfp, hep, by simp⟩
    · by_cases hd : isDigit c = true
      · simp only [numNat, hc, if_false, hd, if_true] at h
        match ht : numTail (digitSpan (c :: r2)).2 with
        | none => rw [ht] at h; simp at h
        | some (tl, r3) =>
          rw [ht] at h
          simp only [Option.map_some', Option.some.injEq, Prod.mk.injEq] at h
          obtain ⟨h1, h2⟩ := h
          obtain ⟨hsp, fp, ep, hfp, hep, htl⟩ := numTail_spec _ tl r3 ht
          subst h1 h2 htl
          have hds := digitSpan_split (c :: r2)
          have hall := digitSpan_all_digits (c :: r2)
          have hfst : (digitSpan (c :: r2)).1 = c :: (digitSpan r2).1 := by
            simp [digitSpan, hd]
          constructor
          · conv_lhs => rw [hds]
            simp [hsp]
          · refine ⟨(digitSpan (c :: r2)).1, fp, ep, ?_, hfp, hep, by simp⟩
            refine Or.inr ⟨c, (digitSpan r2).1, hfst, hd, hc, ?_⟩
            intro x hx
            exact hall x (by rw [hfst]; exact List.mem_cons_of_mem c hx)
      · simp [numNat, hc, hd] at h

theorem scanNumber_spec (l s r : List Char) (h : scanNumber l = some (s, r)) :
    l = s ++ r ∧ NumShape s := by
  cases l with
  | nil => simp [scanNumber] at h
  | cons c r2 =>
    by_cases hc : c = '-'
    · simp only [scanNumber, hc, if_true] at h
      match hn : numNat r2 with
      | none => rw [hn] at h; simp at h
      | some (s2, r3) =>
        rw [hn] at h
        simp only [Option.map_some', Option.some.injEq, Prod.mk.injEq] at h
        obtain ⟨h1, h2⟩ := h
        obtain ⟨hsp, ip, fp, ep, hip, hfp, hep, hs2⟩ := numNat_spec r2 s2 r3 hn
        subst h1 h2 hc hs2
        exact ⟨by simp [hsp], ['-'], ip, fp, ep, Or.inr rfl, hip, hfp, hep, by simp⟩
    · simp only [scanNumber, hc, if_false] at h
      obtain ⟨hsp, ip, fp, ep, hip, hfp, hep, hs⟩ := numNat_spec _ s r h
      exact ⟨hsp, [], ip, fp, ep, Or.inl rfl, hip, hfp, hep, by simp [hs]⟩

/-! Forward direction: a shaped span scans exactly, for any non-extending
continuation. -/

theorem digitsReq_exact (d t : List Char) (hne : d ≠ [])
    (hd : ∀ c ∈ d, isDigit c = true)
    (ht : ∀ c r, t = c :: r → isDigit c = false) :
    digitsReq (d ++ t) = some (d, t) := by
  cases d with
  | nil => exact absurd rfl hne
  | cons c ds =>
    have hc : isDigit c = true := hd c (by simp)
    simp only [List.cons_append, digitsReq, hc, if_true]
    rw [show (c :: (ds ++ t)) = (c :: ds) ++ t by simp]
    rw [digitSpan_exact (c :: ds) t hd ht]

theorem fracPart_exact (fp t : List Char) (hfp : FracShape fp)
    (ht : ∀ c r, t = c :: r → isDigit c = false ∧ c ≠ '.') :
    fracPart (fp ++ t) = some (fp, t) := by
  rcases hfp with h | ⟨ds, h, hne, hdg⟩
  · subst h
    cases t with
    | nil => simp [fracPart]
    | cons c r => simp [fracPart, (ht c r rfl).2]
  · subst h
    simp only [List.cons_append, fracPart, if_true]
    rw [digitsReq_exact ds t hne hdg (fun c r hc => (ht c r hc).1)]
    rfl

theorem expPart_exact (ep t : List Char) (hep : ExpShape ep)
    (ht : ∀ c r, t = c :: r → isDigit c = false ∧ c ≠ 'e' ∧ c ≠ 'E') :
    expPart (ep ++ t) = some (ep, t) := by
  rcases hep with h | ⟨e, sg, ds, he, hsg, h, hne, hdg⟩
  · subst h
    cases t with
    | nil => simp [expPart]
    | cons c r =>
      have := ht c r rfl
      simp only [List.nil_append, expPart]
      rw [if_neg (by tauto)]
  · subst h
    simp only [List.cons_append, expPart]
    rw [if_pos (by tauto)]
    have hdig : ∀ c r, t = c :: r → isDigit c = false := fun c r hc => (ht c r hc).1
    rcases hsg with hsg | hsg | hsg
    · subst hsg
      simp only [List.nil_append]
      cases ds with
      | nil => exact absurd rfl hne
      | cons c2 ds2 =>
        have hc2 : isDigit c2 = true := hdg c2 (by simp)
        have hc2p : ¬ (c2 = '+' ∨ c2 = '-') := by
          rintro (h | h) <;> subst h <;> simp [isDigit] at hc2
        simp only [List.cons_append]
        rw [if_neg hc2p]
        rw [show (c2 :: (ds2 ++ t)) = (c2 :: ds2) ++ t by simp]
        rw [digitsReq_exact (c2 :: ds2) t (by simp) hdg hdig]
        rfl
    · subst hsg
      simp only [List.cons_append, List.singleton_append]
      rw [if_pos (by simp)]
      simp only [List.nil_append]
      rw [digitsReq_exact ds t hne hdg hdig]
      rfl
    · subst hsg
      simp only [List.cons_append, List.singleton_append]
      rw [if_pos (by simp)]
      simp only [List.nil_append]
      rw [digitsReq_exact ds t hne hdg hdig]
      rfl

theorem numTail_exact (fp ep t : List Char) (hfp : FracShape fp)
    (hep : ExpShape ep) (ht : NumSafe t) :
    numTail (fp ++ ep ++ t) = some (fp ++ ep, t) := by
  unfold numTail
  have h1 : fracPart (fp ++ (ep ++ t)) = some (fp, ep ++ t) := by
    apply fracPart_exact fp (ep ++ t) hfp
    intro c r hc
    rcases hep with h | ⟨e, sg, ds, he, hsg, h, hne, hdg⟩
    · subst h
      simp at hc
      have := ht c r hc
      exact ⟨this.1, this.2.1⟩
    · subst h
      simp only [List.cons_append, List.cons.injEq] at hc
      rcases he with he | he <;>
        (subst he
         obtain ⟨hc1, -⟩ := hc
         subst hc1
         exact ⟨by decide, by decide⟩)
  have h2 : expPart (ep ++ t) = some (ep, t) := by
    apply expPart_exact ep t hep
    intro c r hc
    have := ht c r hc
    exact ⟨this.1, this.2.2.1, this.2.2.2⟩
  rw [show fp ++ ep ++ t = fp ++ (ep ++ t) by simp]
  rw [h1]
  dsimp only
  rw [h2]

theorem scanNumber_exact (s t : List Char) (hs : NumShape s) (ht : NumSafe t) :
    scanNumber (s ++ t) = some (s, t) := by
  obtain ⟨sgn, ip, fp, ep, hsgn, hip, hfp, hep, hdef⟩ := hs
  subst hdef
  have hnum : numNat (ip ++ fp ++ ep ++ t) = some (ip ++ fp ++ ep, t) := by
    rcases hip with h | ⟨c, ds, h, hd, hc0, hds⟩
    · subst h
      rw [show (['0'] ++ fp ++ ep ++ t) = '0' :: (fp ++ (ep ++ t)) by simp]
      simp only [numNat, if_pos rfl]
      rw [show fp ++ (ep ++ t) = fp ++ ep ++ t by simp]
      rw [numTail_exact fp ep t hfp hep ht]
      simp
    · subst h
      have hspan : digitSpan ((c :: ds) ++ (fp ++ ep ++ t)) = (c :: ds, fp ++ ep ++ t) := by
        apply digitSpan_exact
        · intro x hx
          rcases List.mem_cons.mp hx with hx | hx
          · exact hx ▸ hd
          · exact hds x hx
        · intro x r hx
          rcases hfp with hf | ⟨ds2, hf, hne2, _⟩
          · rcases hep with he | ⟨e, sg, ds3, he2, _, he, _, _⟩
            · subst hf he
              simp only [List.nil_append] at hx
              exact (ht x r hx).1
            · subst hf he
              simp only [List.nil_append, List.cons_append, List.cons.injEq] at hx
              obtain ⟨hx1, -⟩ := hx
              rcases he2 with he2 | he2 <;> (subst he2; subst hx1; decide)
          · subst hf
            simp only [List.cons_append, List.cons.injEq] at hx
            obtain ⟨hx1, -⟩ := hx
            subst hx1
            decide
      rw [show ((c :: ds) ++ fp ++ ep ++ t) = c :: (ds ++ (fp ++ ep ++ t)) by simp]
      simp only [numNat, if_neg hc0, hd, if_true]
      rw [show c :: (ds ++ (fp ++ ep ++ t)) = (c :: ds) ++ (fp ++ ep ++ t) by simp]
      rw [hspan]
      dsimp only
      rw [numTail_exact fp ep t hfp hep ht]
      simp
  rcases hsgn with h | h
  · subst h
    simp only [List.nil_append]
    have hip2 : ∃ c r2, ip ++ fp ++ ep ++ t = c :: r2 ∧ c ≠ '-' := by
      rcases hip with h | ⟨c, ds, h, hd, _, _⟩
      · subst h
        exact ⟨'0', fp ++ ep ++ t, by simp, by decide⟩
      · subst h
        refine ⟨c, ds ++ (fp ++ ep ++ t), by simp, ?_⟩
        intro hcontra
        subst hcontra
        simp [isDigit] at hd
    obtain ⟨c, r2, heq, hcm⟩ := hip2
    rw [show ip ++ fp ++ ep ++ t = c :: r2 from heq]
    simp only [scanNumber, if_neg hcm]
    rw [← heq]
    exact hnum
  · subst h
    rw [show (['-'] ++ ip ++ fp ++ ep ++ t) = '-' :: (ip ++ fp ++ ep ++ t) by simp]
    simp only [scanNumber, if_pos rfl]
    rw [hnum]
    simp

/-! ## Literals and the full value scanner (Go `Decoder.readValue`)

`scanVF` models one `readValue` pass over exactly one JSON value with a
fresh scanner: leading whitespace is handled by the caller, compound values
are delimited by their closing bracket, and primitive values are terminated
by any following character (or end of input), Go's "scanEnd is delayed one
byte" behaviour.  Inside a compound value the scanner *does* validate the
delimiter after each element, as Go's `parseState`-tracking scanner does. -/

def scanLit (l : List Char) : Option (List Char × List Char) :=
  if l.take 4 = ['t', 'r', 'u', 'e'] then some (['t', 'r', 'u', 'e'], l.drop 4)
  else if l.take 5 = ['f', 'a', 'l', 's', 'e'] then some (['f', 'a', 'l', 's', 'e'], l.drop 5)
  else if l.take 4 = ['n', 'u', 'l', 'l'] then some (['n', 'u', 'l', 'l'], l.drop 4)
  else none

/-- Split off the maximal whitespace prefix. -/
def splitWS : List Char → List Char × List Char
  | [] => ([], [])
  | c :: r =>
    if isWS c then ((splitWS r).1.cons c, (splitWS r).2)
    else ([], c :: r)

theorem splitWS_append : ∀ l : List Char, l = (splitWS l).1 ++ (splitWS l).2 := by
  intro l
  induction l with
  | nil => simp [splitWS]
  | cons c r ih =>
    simp only [splitWS]
    split
    · simpa using ih
    · simp

theorem splitWS_fst_ws : ∀ l : List Char, ∀ c ∈ (splitWS l).1, isWS c = true := by
  intro l
  induction l with
  | nil => simp [splitWS]
  | cons c r ih =>
    simp only [splitWS]
    split
    · intro x hx
      rcases List.mem_cons.mp hx with h | h
      · exact h ▸ ‹isWS c = true›
      · exact ih x h
    · simp

theorem splitWS_snd : ∀ l : List Char, (splitWS l).2 = skipWS l := by
  intro l
  induction l with
  | nil => simp [splitWS, skipWS]
  | cons c r ih =>
    simp only [splitWS, skipWS]
    split
    · exact ih
    · simp

theorem splitWS_snd_len : ∀ l : List Char, (splitWS l).2.length ≤ l.length := by
  intro l
  rw [splitWS_snd]
  exact skipWS_length_le l

/-- `splitWS` of a whitespace block followed by a non-whitespace head. -/
theorem splitWS_exact (w t : List Char) (hw : ∀ c ∈ w, isWS c = true)
    (ht : ∀ c r, t = c :: r → isWS c = false) :
    splitWS (w ++ t) = (w, t) := by
  induction w with
  | nil =>
    cases t with
    | nil => simp [splitWS]
    | cons c r => simp [splitWS, ht c r rfl]
  | cons c w2 ih =>
    have hc : isWS c = true := hw c (by simp)
    simp only [List.cons_append, splitWS, hc, if_true]
    show (c :: (splitWS (w2 ++ t)).1, (splitWS (w2 ++ t)).2) = (c :: w2, t)
    rw [ih (fun x hx => hw x (by simp [hx]))]

mutual

def scanVF : Nat → List Char → Option (List Char × List Char)
  | 0, _ => none
  | f+1, l =>
    match l with
    | [] => none
    | c :: r =>
      if c = '"' then
        match scanStr r with
        | none => none
        | some (_, cons, rest) => some ('"' :: cons, rest)
      else if c = '{' then
        match scanMembersF f true r with
        | none => none
        | some (ms, rest) => some ('{' :: ms, rest)
      else if c = '[' then
        match scanElemsF f true r with
        | none => none
        | some (es, rest) => some ('[' :: es, rest)
      else if c = '-' ∨ isDigit c then scanNumber (c :: r)
      else if c = 't' ∨ c = 'f' ∨ c = 'n' then scanLit (c :: r)
      else none

def scanMembersF : Nat → Bool → List Char → Option (List Char × List Char)
  | 0, _, _ => none
  | f+1, first, l =>
    match (splitWS l).2 with
    | [] => none
    | c :: r =>
      if c = '}' then
        if first then some ((splitWS l).1 ++ [c], r) else none
      else if c = '"' then
        match scanStr r with
        | none => none
        | some (_, kc, r2) =>
          match (splitWS r2).2 with
          | [] => none
          | c2 :: r3 =>
            if c2 = ':' then
              match scanVF f (splitWS r3).2 with
              | none => none
              | some (vs, r4) =>
                match (splitWS r4).2 with
                | [] => none
                | c4 :: r5 =>
                  if c4 = ',' then
                    match scanMembersF f false r5 with
                    | none => none
                    | some (ms, r6) =>
                      some ((splitWS l).1 ++ c :: (kc ++ (splitWS r2).1 ++
                        c2 :: ((splitWS r3).1 ++ vs ++ (splitWS r4).1 ++ c4 :: ms)), r6)
                  else if c4 = '}' then
                    some ((splitWS l).1 ++ c :: (kc ++ (splitWS r2).1 ++
                      c2 :: ((splitWS r3).1 ++ vs ++ (splitWS r4).1 ++ [c4])), r5)
                  else none
            else none
      else none

def scanElemsF : Nat → Bool → List Char → Option (List Char × List Char)
  | 0, _, _ => none
  | f+1, first, l =>
    match (splitWS l).2 with
    | [] => none
    | c :: r =>
      if c = ']' then
        if first then some ((splitWS l).1 ++ [c], r) else none
      else
        match scanVF f (c :: r) with
        | none => none
        | some (vs, r2) =>
          match (splitWS r2).2 with
          | [] => none
          | c2 :: r3 =>
            if c2 = ',' then
              match scanElemsF f false r3 with
              | none => none
              | some (es, r4) =>
                some ((splitWS l).1 ++ vs ++ (splitWS r2).1 ++ c2 :: es, r4)
            else if c2 = ']' then
              some ((splitWS l).1 ++ vs ++ (splitWS r2).1 ++ [c2], r3)
            else none

end

/-- One JSON value scanned the way `Decoder.Decode` reads it. -/
def scanValue (l : List Char) : Option (List Char × List Char) :=
  scanVF (l.length + 1) l

/-! ## Rescanning: a consumed span scans the same way in any context

The scanners above consume a span determined by the span's own characters
(with a bounded, never-consuming lookahead in the surrogate-pair case and a
maximal-munch boundary for numbers).  The lemmas here make that precise:
a successfully consumed span, placed before any other continuation
(non-number-extending for values), scans to itself. -/

theorem strStep_some_none : ∀ l k, strStep l = some (none, k) →
    ∃ r0, l = '"' :: r0 ∧ k = 1 := by
  intro l k h
  match l with
  | [] => simp [strStep] at h
  | c :: r =>
    by_cases h1 : c = '"'
    · subst h1
      simp [strStep] at h
      exact ⟨r, rfl, h.symm⟩
    · simp only [strStep, h1, if_false] at h
      by_cases h2 : c = '\\'
      · simp only [h2, if_true] at h
        match r with
        | [] => simp at h
        | e :: r2 =>
          by_cases h3 : e = 'u'
          · simp only [h3, if_true] at h
            match r2 with
            | [] | [_] | [_, _] | [_, _, _] => simp at h
            | a :: b :: cc :: d :: r3 =>
              match hh : hex4 a b cc d with
              | none => simp [hh] at h
              | some n => simp [hh] at h
          · simp only [h3, if_false] at h
            match he : escChar e with
            | none => simp [he] at h
            | some ch => simp [he] at h
      · simp only [h2, if_false] at h
        by_cases h4 : c.toNat < 0x20
        · simp [h4] at h
        · simp [h4] at h

theorem strStep_cases : ∀ l ch k, strStep l = some (some ch, k) →
    (∃ c r0, l = c :: r0 ∧ c ≠ '"' ∧ c ≠ '\\' ∧ ¬ c.toNat < 0x20 ∧
      ch = c ∧ k = 1) ∨
    (∃ e r2, l = '\\' :: e :: r2 ∧ e ≠ 'u' ∧ escChar e = some ch ∧ k = 2) ∨
    (∃ a b cc d r3 n, l = '\\' :: 'u' :: a :: b :: cc :: d :: r3 ∧
      hex4 a b cc d = some n ∧ ch = (uEscape n r3).1 ∧ k = 6 + (uEscape n r3).2) := by
  intro l ch k h
  match l with
  | [] => simp [strStep] at h
  | c :: r =>
    by_cases h1 : c = '"'
    · simp [strStep, h1] at h
    · simp only [strStep, h1, if_false] at h
      by_cases h2 : c = '\\'
      · simp only [h2, if_true] at h
        match r with
        | [] => simp at h
        | e :: r2 =>
          by_cases h3 : e = 'u'
          · simp only [h3, if_true] at h
            match r2 with
            | [] | [_] | [_, _] | [_, _, _] => simp at h
            | a :: b :: cc :: d :: r3 =>
              match hh : hex4 a b cc d with
              | none => simp [hh] at h
              | some n =>
                simp only [hh, Option.some.injEq, Prod.mk.injEq] at h
                refine Or.inr (Or.inr ⟨a, b, cc, d, r3, n, ?_, hh, ?_, ?_⟩)
                · rw [h2, h3]
                · exact h.1.symm
                · exact h.2.symm
          · simp only [h3, if_false] at h
            match he : escChar e with
            | none => simp [he] at h
            | some c2 =>
              simp only [he, Option.some.injEq, Prod.mk.injEq] at h
              refine Or.inr (Or.inl ⟨e, r2, by rw [h2], h3, ?_, h.2.symm⟩)
              rw [he, h.1]
      · simp only [h2, if_false] at h
        by_cases h4 : c.toNat < 0x20
        · simp [h4] at h
        · simp only [h4, if_false, Option.some.injEq, Prod.mk.injEq] at h
          exact Or.inl ⟨c, r, rfl, h1, h2, h4, h.1.symm, h.2.symm⟩

/-- Head shapes a string-body consumption can have; what the surrogate
lookahead needs in order to be context-independent. -/
def HeadClass (cons : List Char) : Prop :=
  (∃ t, cons = '"' :: t) ∨ (∃ c t, cons = c :: t ∧ c ≠ '\\') ∨
  (∃ e t, cons = '\\' :: e :: t ∧ e ≠ 'u') ∨
  (∃ a b cc d t, cons = '\\' :: 'u' :: a :: b :: cc :: d :: t)

/-- The surrogate probe only inspects the head units of its input, so with
a `HeadClass` prefix it cannot see past that prefix. -/
theorem uProbe_frame (cons2 x y : List Char) (hhc : HeadClass cons2) :
    uProbe (cons2 ++ x) = uProbe (cons2 ++ y) := by
  rcases hhc with ⟨t, hc⟩ | ⟨c, t, hc, hcb⟩ | ⟨e, t, hc, hcu⟩ |
    ⟨a, b, cc, d, t, hc⟩ <;> subst hc
  · simp [uProbe]
  · simp only [List.cons_append, uProbe]
    rw [if_neg hcb, if_neg hcb]
  · simp only [List.cons_append, uProbe, if_pos rfl]
    rw [if_neg hcu, if_neg hcu]
  · simp [uProbe]

theorem uEscape_frame (n : Nat) (cons2 x y : List Char) (hhc : HeadClass cons2) :
    uEscape n (cons2 ++ x) = uEscape n (cons2 ++ y) := by
  unfold uEscape
  rw [uProbe_frame cons2 x y hhc]

/-- A full `\uXXXX` prefix makes the probe succeed regardless of what
follows. -/
theorem uProbe_six (a b cc d : Char) (t : List Char) :
    uProbe ('\\' :: 'u' :: a :: b :: cc :: d :: t) = hex4 a b cc d := by
  simp [uProbe]

theorem uProbe_some (l : List Char) (m : Nat) (h : uProbe l = some m) :
    ∃ a b cc d r4, l = '\\' :: 'u' :: a :: b :: cc :: d :: r4 ∧
      hex4 a b cc d = some m := by
  match l with
  | [] => simp [uProbe] at h
  | b1 :: rest1 =>
    by_cases h1 : b1 = '\\'
    · simp only [uProbe, h1, if_true] at h
      match rest1 with
      | [] => simp at h
      | b2 :: rest2 =>
        by_cases h2 : b2 = 'u'
        · simp only [h2, if_true] at h
          match rest2 with
          | [] | [_] | [_, _] | [_, _, _] => simp at h
          | a :: b :: cc :: d :: r4 =>
            exact ⟨a, b, cc, d, r4, by rw [h1, h2], h⟩
        · simp [h2] at h
    · simp [uProbe, h1] at h

theorem uEscape_six_inv (n : Nat) (r3 : List Char)
    (h : (uEscape n r3).2 = 6) :
    ∃ a b cc d r4 m, r3 = '\\' :: 'u' :: a :: b :: cc :: d :: r4 ∧
      hex4 a b cc d = some m ∧ isLowSur m = true ∧ isHighSur n = true ∧
      uEscape n r3 = (Char.ofNat (combineSur n m), 6) := by
  by_cases hhi : isHighSur n = true
  · match hp : uProbe r3 with
    | some m =>
      by_cases hlo : isLowSur m = true
      · obtain ⟨a, b, cc, d, r4, hr3, hh⟩ := uProbe_some r3 m hp
        refine ⟨a, b, cc, d, r4, m, hr3, hh, hlo, hhi, ?_⟩
        unfold uEscape
        rw [if_pos hhi, hp]
        dsimp only
        rw [if_pos hlo]
      · exfalso
        unfold uEscape at h
        rw [if_pos hhi, hp] at h
        dsimp only at h
        rw [if_neg hlo] at h
        simp at h
    | none =>
      exfalso
      unfold uEscape at h
      rw [if_pos hhi, hp] at h
      simp at h
  · exfalso
    unfold uEscape at h
    rw [if_neg hhi] at h
    by_cases hlo : isLowSur n = true
    · rw [if_pos hlo] at h; simp at h
    · rw [if_neg hlo] at h; simp at h

theorem uEscape_zero_or_six (n : Nat) (r3 : List Char) :
    (uEscape n r3).2 = 0 ∨ (uEscape n r3).2 = 6 := by
  unfold uEscape
  by_cases hhi : isHighSur n = true
  · rw [if_pos hhi]
    match hp : uProbe r3 with
    | some m =>
      dsimp only
      by_cases hlo : isLowSur m = true
      · rw [if_pos hlo]; right; rfl
      · rw [if_neg hlo]; left; rfl
    | none => dsimp only; left; rfl
  · rw [if_neg hhi]
    by_cases hlo : isLowSur n = true
    · rw [if_pos hlo]; left; rfl
    · rw [if_neg hlo]; left; rfl

/-- A successfully scanned string body rescans identically before any other
continuation: the consumed span and the decoded text depend only on the
span itself. -/
theorem scanStrF_rescan : ∀ f l dec cons rest,
    scanStrF f l = some (dec, cons, rest) →
    HeadClass cons ∧
    ∀ rest' f', cons.length < f' →
      scanStrF f' (cons ++ rest') = some (dec, cons, rest') := by
  intro f
  induction f with
  | zero => intro l dec cons rest hs; simp [scanStrF] at hs
  | succ f ih =>
    intro l dec cons rest hs
    simp only [scanStrF] at hs
    match hstep : strStep l with
    | none => rw [hstep] at hs; simp at hs
    | some (none, k) =>
      rw [hstep] at hs
      simp only [Option.some.injEq, Prod.mk.injEq] at hs
      obtain ⟨h1, h2, h3⟩ := hs
      obtain ⟨r0, hl, hk⟩ := strStep_some_none l k hstep
      subst hl
      subst h1 h2 h3
      rw [show List.take 1 ('"' :: r0) = ['"'] from rfl]
      constructor
      · exact Or.inl ⟨[], rfl⟩
      · intro rest' f' hf'
        match f', hf' with
        | g+1, hf2 =>
          simp only [scanStrF]
          rw [show (['"'] ++ rest') = '"' :: rest' from rfl]
          rw [show strStep ('"' :: rest') = some (none, 1) by simp [strStep]]
          rw [show List.take 1 ('"' :: rest') = ['"'] from rfl,
              show List.drop 1 ('"' :: rest') = rest' from rfl]
    | some (some ch, k) =>
      rw [hstep] at hs
      dsimp only at hs
      cases hrec : scanStrF f (l.drop k) with
      | none => rw [hrec] at hs; simp at hs
      | some x =>
        obtain ⟨dec2, cons2, rest2⟩ := x
        rw [hrec] at hs
        simp only [Option.some.injEq, Prod.mk.injEq] at hs
        obtain ⟨h1, h2, h3⟩ := hs
        subst h1 h2 h3
        obtain ⟨hsplit2, hne2⟩ := scanStrF_split f (l.drop k) dec2 cons2 rest2 hrec
        obtain ⟨hhc2, hresc2⟩ := ih (l.drop k) dec2 cons2 rest2 hrec
        rcases strStep_cases l ch k hstep with
          ⟨c, r0, hl, hq, hb, hctl, hch, hk⟩ |
          ⟨e, r2, hl, heu, hesc, hk⟩ |
          ⟨a, b, cc, d, r3, n, hl, hhex, hch, hk⟩
        · -- plain character, k = 1
          subst hl hk
          rw [show List.take 1 (c :: r0) = [c] from rfl]
          constructor
          · exact Or.inr (Or.inl ⟨c, cons2, rfl, hb⟩)
          · intro rest' f' hf'
            match f', hf' with
            | g+1, hf2 =>
              simp only [scanStrF]
              rw [show ([c] ++ cons2) ++ rest' = c :: (cons2 ++ rest') by simp]
              have hst : strStep (c :: (cons2 ++ rest')) = some (some c, 1) := by
                simp only [strStep]
                rw [if_neg hq, if_neg hb, if_neg hctl]
              rw [hst]
              dsimp only
              have hg : cons2.length < g := by
                have hlen : ([c] ++ cons2).length = cons2.length + 1 := by simp
                omega
              rw [show List.drop 1 (c :: (cons2 ++ rest')) = cons2 ++ rest' from rfl]
              rw [hresc2 rest' g hg]
              dsimp only
              rw [show List.take 1 (c :: (cons2 ++ rest')) = [c] from rfl]
              rw [hch]
        · -- two-character escape, k = 2
          subst hl hk
          rw [show List.take 2 ('\\' :: e :: r2) = ['\\', e] from rfl]
          constructor
          · exact Or.inr (Or.inr (Or.inl ⟨e, cons2, rfl, heu⟩))
          · intro rest' f' hf'
            match f', hf' with
            | g+1, hf2 =>
              simp only [scanStrF]
              rw [show (['\\', e] ++ cons2) ++ rest' = '\\' :: e :: (cons2 ++ rest') by simp]
              have hst : strStep ('\\' :: e :: (cons2 ++ rest')) = some (some ch, 2) := by
                simp only [strStep]
                rw [if_neg (by decide), if_pos trivial, if_neg heu, hesc]
              rw [hst]
              dsimp only
              have hg : cons2.length < g := by
                have hlen : (['\\', e] ++ cons2).length = cons2.length + 2 := by simp
                omega
              rw [show List.drop 2 ('\\' :: e :: (cons2 ++ rest')) = cons2 ++ rest' from rfl]
              rw [hresc2 rest' g hg]
              dsimp only
              rw [show List.take 2 ('\\' :: e :: (cons2 ++ rest')) = ['\\', e] from rfl]
        · -- \uXXXX escape, k = 6 + (pair consumption)
          subst hl hk
          rcases uEscape_zero_or_six n r3 with h0 | h6
          · -- unpaired: k = 6 + 0
            rw [h0] at hrec hsplit2 ⊢
            rw [show List.take (6+0) ('\\' :: 'u' :: a :: b :: cc :: d :: r3)
                = ['\\', 'u', a, b, cc, d] from rfl]
            rw [show List.drop (6+0) ('\\' :: 'u' :: a :: b :: cc :: d :: r3)
                = r3 from rfl] at hrec hsplit2
            constructor
            · exact Or.inr (Or.inr (Or.inr ⟨a, b, cc, d, cons2, rfl⟩))
            · intro rest' f' hf'
              match f', hf' with
              | g+1, hf2 =>
                simp only [scanStrF]
                rw [show (['\\', 'u', a, b, cc, d] ++ cons2) ++ rest'
                  = '\\' :: 'u' :: a :: b :: cc :: d :: (cons2 ++ rest') by simp]
                have hueq : uEscape n (cons2 ++ rest') = uEscape n r3 := by
                  conv_rhs => rw [hsplit2]
                  exact uEscape_frame n cons2 rest' rest2 hhc2
                have hst : strStep ('\\' :: 'u' :: a :: b :: cc :: d :: (cons2 ++ rest'))
                    = some (some (uEscape n r3).1, 6 + (uEscape n r3).2) := by
                  simp only [strStep]
                  rw [if_neg (by decide), if_pos trivial, if_pos trivial]
                  try dsimp only
                  rw [hhex]
                  try dsimp only
                  rw [hueq]
                rw [hst, h0]
                dsimp only
                have hg : cons2.length < g := by
                  have hlen : (['\\', 'u', a, b, cc, d] ++ cons2).length
                      = cons2.length + 6 := by simp
                  omega
                rw [show List.drop (6+0)
                    ('\\' :: 'u' :: a :: b :: cc :: d :: (cons2 ++ rest'))
                  = cons2 ++ rest' from rfl]
                rw [hresc2 rest' g hg]
                dsimp only
                rw [show List.take (6+0)
                    ('\\' :: 'u' :: a :: b :: cc :: d :: (cons2 ++ rest'))
                  = ['\\', 'u', a, b, cc, d] from rfl]
                try rw [hch]
                try rfl
          · -- paired surrogate: k = 6 + 6
            obtain ⟨a2, b2, c2, d2, r4, m, hr3, hh2, hlo, hhi, hval⟩ :=
              uEscape_six_inv n r3 h6
            subst hr3
            rw [h6] at hrec hsplit2 ⊢
            rw [show List.take (6+6) ('\\' :: 'u' :: a :: b :: cc :: d ::
                ('\\' :: 'u' :: a2 :: b2 :: c2 :: d2 :: r4))
                = ['\\', 'u', a, b, cc, d, '\\', 'u', a2, b2, c2, d2] from rfl]
            rw [show List.drop (6+6) ('\\' :: 'u' :: a :: b :: cc :: d ::
                ('\\' :: 'u' :: a2 :: b2 :: c2 :: d2 :: r4)) = r4 from rfl]
              at hrec hsplit2
            constructor
            · exact Or.inr (Or.inr (Or.inr ⟨a, b, cc, d,
                '\\' :: 'u' :: a2 :: b2 :: c2 :: d2 :: cons2, rfl⟩))
            · intro rest' f' hf'
              match f', hf' with
              | g+1, hf2 =>
                simp only [scanStrF]
                rw [show (['\\', 'u', a, b, cc, d, '\\', 'u', a2, b2, c2, d2] ++ cons2)
                    ++ rest'
                  = '\\' :: 'u' :: a :: b :: cc :: d ::
                    ('\\' :: 'u' :: a2 :: b2 :: c2 :: d2 :: (cons2 ++ rest')) by simp]
                have hueq : uEscape n
                    ('\\' :: 'u' :: a2 :: b2 :: c2 :: d2 :: (cons2 ++ rest'))
                    = (Char.ofNat (combineSur n m), 6) := by
                  unfold uEscape
                  rw [if_pos hhi, uProbe_six, hh2]
                  dsimp only
                  rw [if_pos hlo]
                have hst : strStep ('\\' :: 'u' :: a :: b :: cc :: d ::
                    ('\\' :: 'u' :: a2 :: b2 :: c2 :: d2 :: (cons2 ++ rest')))
                    = some (some (Char.ofNat (combineSur n m)), 6 + 6) := by
                  simp only [strStep]
                  rw [if_neg (by decide), if_pos trivial, if_pos trivial]
                  try dsimp only
                  rw [hhex]
                  try dsimp only
                  rw [hueq]
                rw [hst]
                dsimp only
                have hg : cons2.length < g := by
                  have hlen : (['\\', 'u', a, b, cc, d, '\\', 'u', a2, b2, c2, d2]
                      ++ cons2).length = cons2.length + 12 := by simp
                  omega
                rw [show List.drop (6+6) ('\\' :: 'u' :: a :: b :: cc :: d ::
                    ('\\' :: 'u' :: a2 :: b2 :: c2 :: d2 :: (cons2 ++ rest')))
                  = cons2 ++ rest' from rfl]
                rw [hresc2 rest' g hg]
                dsimp only
                rw [show List.take (6+6) ('\\' :: 'u' :: a :: b :: cc :: d ::
                    ('\\' :: 'u' :: a2 :: b2 :: c2 :: d2 :: (cons2 ++ rest')))
                  = ['\\', 'u', a, b, cc, d, '\\', 'u', a2, b2, c2, d2] from rfl]
                rw [hch, hval]

/-- All three scanners consume an actual prefix of their input. -/
theorem scanF_split : ∀ f,
    (∀ l s r, scanVF f l = some (s, r) → l = s ++ r ∧ s ≠ []) ∧
    (∀ first l s r, scanMembersF f first l = some (s, r) → l = s ++ r ∧ s ≠ []) ∧
    (∀ first l s r, scanElemsF f first l = some (s, r) → l = s ++ r ∧ s ≠ []) := by
  intro f
  induction f with
  | zero =>
    refine ⟨?_, ?_, ?_⟩
    · intro l s r hs; simp [scanVF] at hs
    · intro first l s r hs; simp [scanMembersF] at hs
    · intro first l s r hs; simp [scanElemsF] at hs
  | succ f ih =>
    obtain ⟨ihv, ihm, ihe⟩ := ih
    refine ⟨?_, ?_, ?_⟩
    · -- scanVF
      intro l s r hs
      match l with
      | [] => simp [scanVF] at hs
      | c :: r0 =>
        simp only [scanVF] at hs
        by_cases h1 : c = '"'
        · rw [if_pos h1] at hs
          match hss : scanStr r0 with
          | none => rw [hss] at hs; simp at hs
          | some (dec, cons, rest) =>
            rw [hss] at hs
            simp only [Option.some.injEq, Prod.mk.injEq] at hs
            obtain ⟨hs1, hs2⟩ := hs
            subst hs1 hs2 h1
            obtain ⟨hsp, -⟩ := scanStrF_split _ r0 dec cons rest hss
            exact ⟨by rw [hsp]; rfl, by simp⟩
        · rw [if_neg h1] at hs
          by_cases h2 : c = '{'
          · rw [if_pos h2] at hs
            match hsm : scanMembersF f true r0 with
            | none => rw [hsm] at hs; simp at hs
            | some (ms, rest) =>
              rw [hsm] at hs
              simp only [Option.some.injEq, Prod.mk.injEq] at hs
              obtain ⟨hs1, hs2⟩ := hs
              subst hs1 hs2 h2
              obtain ⟨hsp, -⟩ := ihm true r0 ms rest hsm
              exact ⟨by rw [hsp]; rfl, by simp⟩
          · rw [if_neg h2] at hs
            by_cases h3 : c = '['
            · rw [if_pos h3] at hs
              match hse : scanElemsF f true r0 with
              | none => rw [hse] at hs; simp at hs
              | some (es, rest) =>
                rw [hse] at hs
                simp only [Option.some.injEq, Prod.mk.injEq] at hs
                obtain ⟨hs1, hs2⟩ := hs
                subst hs1 hs2 h3
                obtain ⟨hsp, -⟩ := ihe true r0 es rest hse
                exact ⟨by rw [hsp]; rfl, by simp⟩
            · rw [if_neg h3] at hs
              by_cases h4 : c = '-' ∨ isDigit c = true
              · rw [if_pos h4] at hs
                obtain ⟨hsp, hshape⟩ := scanNumber_spec (c :: r0) s r hs
                refine ⟨hsp, ?_⟩
                obtain ⟨sgn, ip, fp, ep, hsgn, hip, -, -, hdef⟩ := hshape
                subst hdef
                rcases hsgn with h | h <;> subst h
                · rcases hip with h | ⟨c2, ds, h, -, -, -⟩ <;> subst h <;> simp
                · simp
              · rw [if_neg h4] at hs
                by_cases h5 : c = 't' ∨ c = 'f' ∨ c = 'n'
                · rw [if_pos h5] at hs
                  unfold scanLit at hs
                  split at hs
                  · simp only [Option.some.injEq, Prod.mk.injEq] at hs
                    obtain ⟨hs1, hs2⟩ := hs
                    subst hs1 hs2
                    refine ⟨?_, by simp⟩
                    conv_lhs => rw [← List.take_append_drop 4 (c :: r0)]
                    rw [‹(c :: r0).take 4 = ['t', 'r', 'u', 'e']›]
                  · split at hs
                    · simp only [Option.some.injEq, Prod.mk.injEq] at hs
                      obtain ⟨hs1, hs2⟩ := hs
                      subst hs1 hs2
                      refine ⟨?_, by simp⟩
                      conv_lhs => rw [← List.take_append_drop 5 (c :: r0)]
                      rw [‹(c :: r0).take 5 = ['f', 'a', 'l', 's', 'e']›]
                    · split at hs
                      · simp only [Option.some.injEq, Prod.mk.injEq] at hs
                        obtain ⟨hs1, hs2⟩ := hs
                        subst hs1 hs2
                        refine ⟨?_, by simp⟩
                        conv_lhs => rw [← List.take_append_drop 4 (c :: r0)]
                        rw [‹(c :: r0).take 4 = ['n', 'u', 'l', 'l']›]
                      · simp at hs
                · rw [if_neg h5] at hs
                  simp at hs
    · -- scanMembersF
      intro first l s r hs
      simp only [scanMembersF] at hs
      have hlsplit : l = (splitWS l).1 ++ (splitWS l).2 := splitWS_append l
      match hj : (splitWS l).2 with
      | [] => rw [hj] at hs; simp at hs
      | c :: r1 =>
        rw [hj] at hs hlsplit
        dsimp only at hs
        by_cases hc1 : c = '}'
        · rw [if_pos hc1] at hs
          by_cases hfirst : first = true
          · rw [if_pos hfirst] at hs
            simp only [Option.some.injEq, Prod.mk.injEq] at hs
            obtain ⟨hs1, hs2⟩ := hs
            subst hs1 hs2
            refine ⟨?_, by simp⟩
            conv_lhs => rw [hlsplit]
            simp
          · rw [if_neg hfirst] at hs; simp at hs
        · rw [if_neg hc1] at hs
          by_cases hc2 : c = '"'
          · rw [if_pos hc2] at hs
            match hss : scanStr r1 with
            | none => rw [hss] at hs; simp at hs
            | some (dec, kc, r2) =>
              rw [hss] at hs
              dsimp only at hs
              obtain ⟨hksp, -⟩ := scanStrF_split _ r1 dec kc r2 hss
              have h2split : r2 = (splitWS r2).1 ++ (splitWS r2).2 := splitWS_append r2
              match hj2 : (splitWS r2).2 with
              | [] => rw [hj2] at hs; simp at hs
              | c2 :: r3 =>
                rw [hj2] at hs h2split
                dsimp only at hs
                by_cases hc3 : c2 = ':'
                · rw [if_pos hc3] at hs
                  have h3split : r3 = (splitWS r3).1 ++ (splitWS r3).2 :=
                    splitWS_append r3
                  match hsv : scanVF f (splitWS r3).2 with
                  | none => rw [hsv] at hs; simp at hs
                  | some (vs, r4) =>
                    rw [hsv] at hs
                    dsimp only at hs
                    obtain ⟨hvsp, -⟩ := ihv _ vs r4 hsv
                    have h4split : r4 = (splitWS r4).1 ++ (splitWS r4).2 :=
                      splitWS_append r4
                    match hj4 : (splitWS r4).2 with
                    | [] => rw [hj4] at hs; simp at hs
                    | c4 :: r5 =>
                      rw [hj4] at hs h4split
                      dsimp only at hs
                      by_cases hc4 : c4 = ','
                      · rw [if_pos hc4] at hs
                        match hsm : scanMembersF f false r5 with
                        | none => rw [hsm] at hs; simp at hs
                        | some (ms, r6) =>
                          rw [hsm] at hs
                          simp only [Option.some.injEq, Prod.mk.injEq] at hs
                          obtain ⟨hs1, hs2⟩ := hs
                          subst hs1 hs2
                          obtain ⟨hmsp, -⟩ := ihm false r5 ms r6 hsm
                          constructor
                          · conv_lhs =>
                              rw [hlsplit, hksp, h2split, h3split, hvsp, h4split, hmsp]
                            simp
                          · simp
                      · rw [if_neg hc4] at hs
                        by_cases hc5 : c4 = '}'
                        · rw [if_pos hc5] at hs
                          simp only [Option.some.injEq, Prod.mk.injEq] at hs
                          obtain ⟨hs1, hs2⟩ := hs
                          subst hs1 hs2
                          constructor
                          · conv_lhs =>
                              rw [hlsplit, hksp, h2split, h3split, hvsp, h4split]
                            simp
                          · simp
                        · rw [if_neg hc5] at hs; simp at hs
                · rw [if_neg hc3] at hs; simp at hs
          · rw [if_neg hc2] at hs; simp at hs
    · -- scanElemsF
      intro first l s r hs
      simp only [scanElemsF] at hs
      have hlsplit : l = (splitWS l).1 ++ (splitWS l).2 := splitWS_append l
      match hj : (splitWS l).2 with
      | [] => rw [hj] at hs; simp at hs
      | c :: r1 =>
        rw [hj] at hs hlsplit
        dsimp only at hs
        by_cases hc1 : c = ']'
        · rw [if_pos hc1] at hs
          by_cases hfirst : first = true
          · rw [if_pos hfirst] at hs
            simp only [Option.some.injEq, Prod.mk.injEq] at hs
            obtain ⟨hs1, hs2⟩ := hs
            subst hs1 hs2
            refine ⟨?_, by simp⟩
            conv_lhs => rw [hlsplit]
            simp
          · rw [if_neg hfirst] at hs; simp at hs
        · rw [if_neg hc1] at hs
          match hsv : scanVF f (c :: r1) with
          | none => rw [hsv] at hs; simp at hs
          | some (vs, r2) =>
            rw [hsv] at hs
            dsimp only at hs
            obtain ⟨hvsp, hvne⟩ := ihv _ vs r2 hsv
            have h2split : r2 = (splitWS r2).1 ++ (splitWS r2).2 := splitWS_append r2
            match hj2 : (splitWS r2).2 with
            | [] => rw [hj2] at hs; simp at hs
            | c2 :: r3 =>
              rw [hj2] at hs h2split
              dsimp only at hs
              by_cases hc3 : c2 = ','
              · rw [if_pos hc3] at hs
                match hse : scanElemsF f false r3 with
                | none => rw [hse] at hs; simp at hs
                | some (es, r4) =>
                  rw [hse] at hs
                  simp only [Option.some.injEq, Prod.mk.injEq] at hs
                  obtain ⟨hs1, hs2⟩ := hs
                  subst hs1 hs2
                  obtain ⟨hesp, -⟩ := ihe false r3 es r4 hse
                  constructor
                  · conv_lhs => rw [hlsplit, hvsp, h2split, hesp]
                    simp
                  · simp
              · rw [if_neg hc3] at hs
                by_cases hc4 : c2 = ']'
                · rw [if_pos hc4] at hs
                  simp only [Option.some.injEq, Prod.mk.injEq] at hs
                  obtain ⟨hs1, hs2⟩ := hs
                  subst hs1 hs2
                  constructor
                  · conv_lhs => rw [hlsplit, hvsp, h2split]
                    simp
                  · simp
                · rw [if_neg hc4] at hs; simp at hs

theorem ws_not_digit (c : Char) (h : isWS c = true) :
    isDigit c = false ∧ c ≠ '.' ∧ c ≠ 'e' ∧ c ≠ 'E' := by
  simp only [isWS, Bool.or_eq_true, decide_eq_true_eq] at h
  rcases h with ((h | h) | h) | h <;> subst h <;> refine ⟨by decide, by decide, by decide, by decide⟩

/-- A whitespace run followed by a delimiter is a safe continuation for a
number span. -/
theorem numSafe_wsdelim (v1 : List Char) (c4 : Char) (X : List Char)
    (hv : ∀ x ∈ v1, isWS x = true)
    (hc : isDigit c4 = false ∧ c4 ≠ '.' ∧ c4 ≠ 'e' ∧ c4 ≠ 'E') :
    NumSafe (v1 ++ c4 :: X) := by
  intro c r hcr
  cases v1 with
  | nil =>
    simp only [List.nil_append, List.cons.injEq] at hcr
    exact hcr.1 ▸ hc
  | cons w v2 =>
    simp only [List.cons_append, List.cons.injEq] at hcr
    have := ws_not_digit w (hv w (by simp))
    exact hcr.1 ▸ this

theorem numSafe_ws (t : List Char) (h : ∀ x ∈ t, isWS x = true) : NumSafe t := by
  intro c r hcr
  subst hcr
  exact ws_not_digit c (h c (by simp))

/-- A value span starts with a non-whitespace value-opening character. -/
theorem scanVF_head (f : Nat) (l s r : List Char) (hs : scanVF f l = some (s, r)) :
    ∃ cv s2, s = cv :: s2 ∧ isWS cv = false ∧
      (cv = '"' ∨ cv = '{' ∨ cv = '[' ∨ cv = '-' ∨ isDigit cv = true ∨
        cv = 't' ∨ cv = 'f' ∨ cv = 'n') := by
  match f with
  | 0 => simp [scanVF] at hs
  | f+1 =>
    match l with
    | [] => simp [scanVF] at hs
    | c :: r0 =>
      obtain ⟨hsp, hne⟩ := (scanF_split (f+1)).1 (c :: r0) s r hs
      match s, hne with
      | s0 :: s2, _ =>
        simp only [List.cons_append, List.cons.injEq] at hsp
        obtain ⟨hc0, -⟩ := hsp
        subst hc0
        refine ⟨c, s2, rfl, ?_⟩
        simp only [scanVF] at hs
        by_cases h1 : c = '"'
        · subst h1; exact ⟨by decide, by tauto⟩
        · rw [if_neg h1] at hs
          by_cases h2 : c = '{'
          · subst h2; exact ⟨by decide, by tauto⟩
          · rw [if_neg h2] at hs
            by_cases h3 : c = '['
            · subst h3; exact ⟨by decide, by tauto⟩
            · rw [if_neg h3] at hs
              by_cases h4 : c = '-' ∨ isDigit c = true
              · refine ⟨?_, by tauto⟩
                rcases h4 with h | h
                · subst h; decide
                · by_contra hws
                  have := ws_not_digit c (by simpa using hws)
                  rw [this.1] at h
                  cases h
              · rw [if_neg h4] at hs
                by_cases h5 : c = 't' ∨ c = 'f' ∨ c = 'n'
                · refine ⟨?_, by tauto⟩
                  rcases h5 with h | h | h <;> (subst h; decide)
                · rw [if_neg h5] at hs
                  simp at hs

/-- A value-opening character is not a closing bracket or brace. -/
theorem valHead_ne (cv : Char)
    (h : cv = '"' ∨ cv = '{' ∨ cv = '[' ∨ cv = '-' ∨ isDigit cv = true ∨
      cv = 't' ∨ cv = 'f' ∨ cv = 'n') : cv ≠ ']' ∧ cv ≠ '}' := by
  rcases h with h | h | h | h | h | h | h | h <;>
    first
    | (subst h; exact ⟨by decide, by decide⟩)
    | (constructor <;> (intro hc; subst hc; simp [isDigit] at h))

theorem scanStr_rescan (l dec cons rest : List Char)
    (hs : scanStr l = some (dec, cons, rest)) (rest' : List Char) :
    scanStr (cons ++ rest') = some (dec, cons, rest') := by
  obtain ⟨-, hresc⟩ := scanStrF_rescan _ l dec cons rest hs
  exact hresc rest' ((cons ++ rest').length + 1) (by simp; omega)

/-- The central rescan property: a span consumed by any of the three
scanners is consumed identically, with any remaining fuel above its length,
before any continuation that cannot extend a number. -/
theorem scanF_rescan : ∀ f,
    (∀ l s r, scanVF f l = some (s, r) →
      ∀ t, NumSafe t → ∀ f', s.length < f' → scanVF f' (s ++ t) = some (s, t)) ∧
    (∀ first l s r, scanMembersF f first l = some (s, r) →
      ∀ t f', s.length < f' → scanMembersF f' first (s ++ t) = some (s, t)) ∧
    (∀ first l s r, scanElemsF f first l = some (s, r) →
      ∀ t f', s.length < f' → scanElemsF f' first (s ++ t) = some (s, t)) := by
  intro f
  induction f with
  | zero =>
    refine ⟨?_, ?_, ?_⟩
    · intro l s r hs; simp [scanVF] at hs
    · intro first l s r hs; simp [scanMembersF] at hs
    · intro first l s r hs; simp [scanElemsF] at hs
  | succ f ih =>
    obtain ⟨ihv, ihm, ihe⟩ := ih
    refine ⟨?_, ?_, ?_⟩
    · -- scanVF
      intro l s r hs t hnt f' hf'
      match l with
      | [] => simp [scanVF] at hs
      | c :: r0 =>
        simp only [scanVF] at hs
        by_cases h1 : c = '"'
        · rw [if_pos h1] at hs
          match hss : scanStr r0 with
          | none => rw [hss] at hs; simp at hs
          | some (dec, cons, rest) =>
            rw [hss] at hs
            simp only [Option.some.injEq, Prod.mk.injEq] at hs
            obtain ⟨hs1, hs2⟩ := hs
            subst hs1 hs2 h1
            match f', hf' with
            | g+1, hf2 =>
              simp only [scanVF]
              rw [show ('"' :: cons) ++ t = '"' :: (cons ++ t) by simp]
              dsimp only
              rw [if_pos rfl]
              rw [scanStr_rescan r0 dec cons rest hss t]
        · rw [if_neg h1] at hs
          by_cases h2 : c = '{'
          · rw [if_pos h2] at hs
            match hsm : scanMembersF f true r0 with
            | none => rw [hsm] at hs; simp at hs
            | some (ms, rest) =>
              rw [hsm] at hs
              simp only [Option.some.injEq, Prod.mk.injEq] at hs
              obtain ⟨hs1, hs2⟩ := hs
              subst hs1 hs2 h2
              match f', hf' with
              | g+1, hf2 =>
                simp only [scanVF]
                rw [show ('{' :: ms) ++ t = '{' :: (ms ++ t) by simp]
                dsimp only
                rw [if_neg (by decide), if_pos rfl]
                have hg : ms.length < g := by
                  simp only [List.length_cons] at hf2
                  omega
                rw [ihm true r0 ms rest hsm t g hg]
          · rw [if_neg h2] at hs
            by_cases h3 : c = '['
            · rw [if_pos h3] at hs
              match hse : scanElemsF f true r0 with
              | none => rw [hse] at hs; simp at hs
              | some (es, rest) =>
                rw [hse] at hs
                simp only [Option.some.injEq, Prod.mk.injEq] at hs
                obtain ⟨hs1, hs2⟩ := hs
                subst hs1 hs2 h3
                match f', hf' with
                | g+1, hf2 =>
                  simp only [scanVF]
                  rw [show ('[' :: es) ++ t = '[' :: (es ++ t) by simp]
                  dsimp only
                  rw [if_neg (by decide), if_neg (by decide), if_pos rfl]
                  have hg : es.length < g := by
                    simp only [List.length_cons] at hf2
                    omega
                  rw [ihe true r0 es rest hse t g hg]
            · rw [if_neg h3] at hs
              by_cases h4 : c = '-' ∨ isDigit c = true
              · rw [if_pos h4] at hs
                obtain ⟨hsp, hshape⟩ := scanNumber_spec (c :: r0) s r hs
                have hnum := scanNumber_exact s t hshape hnt
                have hhead : ∃ s2, s = c :: s2 := by
                  obtain ⟨-, hne⟩ := (scanF_split (f+1)).1 (c :: r0) s r
                    (by
                      simp only [scanVF]
                      rw [if_neg h1, if_neg h2, if_neg h3, if_pos h4]
                      exact hs)
                  match s, hne with
                  | s0 :: s2, _ =>
                    simp only [List.cons_append, List.cons.injEq] at hsp
                    exact ⟨s2, by rw [hsp.1]⟩
                obtain ⟨s2, hseq⟩ := hhead
                match f', hf' with
                | g+1, hf2 =>
                  simp only [scanVF]
                  rw [hseq]
                  rw [show (c :: s2) ++ t = c :: (s2 ++ t) by simp]
                  dsimp only
                  rw [if_neg h1, if_neg h2, if_neg h3, if_pos h4]
                  rw [show c :: (s2 ++ t) = (c :: s2) ++ t by simp, ← hseq]
                  exact hnum
              · rw [if_neg h4] at hs
                by_cases h5 : c = 't' ∨ c = 'f' ∨ c = 'n'
                · rw [if_pos h5] at hs
                  unfold scanLit at hs
                  split at hs
                  · simp only [Option.some.injEq, Prod.mk.injEq] at hs
                    obtain ⟨hs1, hs2⟩ := hs
                    subst hs1 hs2
                    have hceq : c = 't' := by
                      have h4 := ‹(c :: r0).take 4 = ['t', 'r', 'u', 'e']›
                      rw [show (c :: r0).take 4 = c :: r0.take 3 from rfl] at h4
                      exact (List.cons.injEq _ _ _ _ ▸ h4).1
                    subst hceq
                    match f', hf' with
                    | g+1, hf2 =>
                      simp only [scanVF]
                      rw [show (['t','r','u','e'] ++ t) = 't' :: ('r' :: 'u' :: 'e' :: t) by simp]
                      dsimp only
                      rw [if_neg (by decide), if_neg (by decide), if_neg (by decide),
                        if_neg (by decide), if_pos (by left; rfl)]
                      unfold scanLit
                      simp
                  · split at hs
                    · simp only [Option.some.injEq, Prod.mk.injEq] at hs
                      obtain ⟨hs1, hs2⟩ := hs
                      subst hs1 hs2
                      have hceq : c = 'f' := by
                        have h5' := ‹(c :: r0).take 5 = ['f', 'a', 'l', 's', 'e']›
                        rw [show (c :: r0).take 5 = c :: r0.take 4 from rfl] at h5'
                        exact (List.cons.injEq _ _ _ _ ▸ h5').1
                      subst hceq
                      match f', hf' with
                      | g+1, hf2 =>
                        simp only [scanVF]
                        rw [show (['f','a','l','s','e'] ++ t)
                          = 'f' :: ('a' :: 'l' :: 's' :: 'e' :: t) by simp]
                        dsimp only
                        rw [if_neg (by decide), if_neg (by decide), if_neg (by decide),
                          if_neg (by decide), if_pos (by right; left; rfl)]
                        unfold scanLit
                        simp
                    · split at hs
                      · simp only [Option.some.injEq, Prod.mk.injEq] at hs
                        obtain ⟨hs1, hs2⟩ := hs
                        subst hs1 hs2
                        have hceq : c = 'n' := by
                          have h4 := ‹(c :: r0).take 4 = ['n', 'u', 'l', 'l']›
                          rw [show (c :: r0).take 4 = c :: r0.take 3 from rfl] at h4
                          exact (List.cons.injEq _ _ _ _ ▸ h4).1
                        subst hceq
                        match f', hf' with
                        | g+1, hf2 =>
                          simp only [scanVF]
                          rw [show (['n','u','l','l'] ++ t)
                            = 'n' :: ('u' :: 'l' :: 'l' :: t) by simp]
                          dsimp only
                          rw [if_neg (by decide), if_neg (by decide), if_neg (by decide),
                            if_neg (by decide), if_pos (by right; right; rfl)]
                          unfold scanLit
                          simp
                      · simp at hs
                · rw [if_neg h5] at hs
                  simp at hs
    · -- scanMembersF
      intro first l s r hs t f' hf'
      simp only [scanMembersF] at hs
      match hj : (splitWS l).2 with
      | [] => rw [hj] at hs; simp at hs
      | c :: r1 =>
        rw [hj] at hs
        dsimp only at hs
        have hp1ws : ∀ x ∈ (splitWS l).1, isWS x = true := splitWS_fst_ws l
        by_cases hc1 : c = '}'
        · rw [if_pos hc1] at hs
          by_cases hfirst : first = true
          · rw [if_pos hfirst] at hs
            simp only [Option.some.injEq, Prod.mk.injEq] at hs
            obtain ⟨hs1, hs2⟩ := hs
            subst hs1 hs2 hfirst
            match f', hf' with
            | g+1, hf2 =>
              simp only [scanMembersF]
              have hsw : splitWS (((splitWS l).1 ++ [c]) ++ t)
                  = ((splitWS l).1, c :: t) := by
                rw [show ((splitWS l).1 ++ [c]) ++ t = (splitWS l).1 ++ (c :: t) by simp]
                exact splitWS_exact _ _ hp1ws
                  (fun x rr hx => by
                    cases hx
                    subst hc1
                    decide)
              rw [hsw]
              dsimp only
              rw [if_pos hc1, if_pos trivial]
          · rw [if_neg hfirst] at hs; simp at hs
        · rw [if_neg hc1] at hs
          by_cases hc2 : c = '"'
          · rw [if_pos hc2] at hs
            match hss : scanStr r1 with
            | none => rw [hss] at hs; simp at hs
            | some (dec, kc, r2) =>
              rw [hss] at hs
              dsimp only at hs
              match hj2 : (splitWS r2).2 with
              | [] => rw [hj2] at hs; simp at hs
              | c2 :: r3 =>
                rw [hj2] at hs
                dsimp only at hs
                have hq1ws : ∀ x ∈ (splitWS r2).1, isWS x = true := splitWS_fst_ws r2
                by_cases hc3 : c2 = ':'
                · rw [if_pos hc3] at hs
                  match hsv : scanVF f (splitWS r3).2 with
                  | none => rw [hsv] at hs; simp at hs
                  | some (vs, r4) =>
                    rw [hsv] at hs
                    dsimp only at hs
                    have hu1ws : ∀ x ∈ (splitWS r3).1, isWS x = true := splitWS_fst_ws r3
                    obtain ⟨cv, vs2, hvseq, hvws, hvclass⟩ := scanVF_head f _ vs r4 hsv
                    match hj4 : (splitWS r4).2 with
                    | [] => rw [hj4] at hs; simp at hs
                    | c4 :: r5 =>
                      rw [hj4] at hs
                      dsimp only at hs
                      have hv1ws : ∀ x ∈ (splitWS r4).1, isWS x = true :=
                        splitWS_fst_ws r4
                      by_cases hc4 : c4 = ','
                      · rw [if_pos hc4] at hs
                        match hsm : scanMembersF f false r5 with
                        | none => rw [hsm] at hs; simp at hs
                        | some (ms, r6) =>
                          rw [hsm] at hs
                          simp only [Option.some.injEq, Prod.mk.injEq] at hs
                          obtain ⟨hs1, hs2⟩ := hs
                          subst hs1 hs2
                          match f', hf' with
                          | g+1, hf2 =>
                            simp only [scanMembersF]
                            have hsw : splitWS (((splitWS l).1 ++ c :: (kc ++
                                (splitWS r2).1 ++ c2 :: ((splitWS r3).1 ++ vs ++
                                (splitWS r4).1 ++ c4 :: ms))) ++ t)
                                = ((splitWS l).1, c :: ((kc ++ (splitWS r2).1 ++
                                  c2 :: ((splitWS r3).1 ++ vs ++ (splitWS r4).1 ++
                                  c4 :: ms)) ++ t)) := by
                              rw [show ((splitWS l).1 ++ c :: (kc ++ (splitWS r2).1 ++
                                c2 :: ((splitWS r3).1 ++ vs ++ (splitWS r4).1 ++
                                c4 :: ms))) ++ t
                                = (splitWS l).1 ++ (c :: ((kc ++ (splitWS r2).1 ++
                                  c2 :: ((splitWS r3).1 ++ vs ++ (splitWS r4).1 ++
                                  c4 :: ms)) ++ t)) by simp]
                              exact splitWS_exact _ _ hp1ws
                                (fun x rr hx => by
                                  cases hx
                                  subst hc2
                                  decide)
                            rw [hsw]
                            dsimp only
                            rw [if_neg hc1, if_pos hc2]
                            rw [show (kc ++ (splitWS r2).1 ++ c2 :: ((splitWS r3).1 ++
                              vs ++ (splitWS r4).1 ++ c4 :: ms)) ++ t
                              = kc ++ ((splitWS r2).1 ++ c2 :: ((splitWS r3).1 ++
                                vs ++ (splitWS r4).1 ++ c4 :: ms) ++ t) by simp]
                            rw [scanStr_rescan r1 dec kc r2 hss _]
                            dsimp only
                            have hsw2 : splitWS ((splitWS r2).1 ++ c2 :: ((splitWS r3).1
                                ++ vs ++ (splitWS r4).1 ++ c4 :: ms) ++ t)
                                = ((splitWS r2).1, c2 :: (((splitWS r3).1 ++ vs ++
                                  (splitWS r4).1 ++ c4 :: ms) ++ t)) := by
                              rw [show (splitWS r2).1 ++ c2 :: ((splitWS r3).1 ++ vs ++
                                (splitWS r4).1 ++ c4 :: ms) ++ t
                                = (splitWS r2).1 ++ (c2 :: (((splitWS r3).1 ++ vs ++
                                  (splitWS r4).1 ++ c4 :: ms) ++ t)) by simp]
                              exact splitWS_exact _ _ hq1ws
                                (fun x rr hx => by
                                  cases hx
                                  subst hc3
                                  decide)
                            rw [hsw2]
                            dsimp only
                            rw [if_pos hc3]
                            have hsw3 : splitWS (((splitWS r3).1 ++ vs ++
                                (splitWS r4).1 ++ c4 :: ms) ++ t)
                                = ((splitWS r3).1, vs ++ ((splitWS r4).1 ++
                                  c4 :: ms ++ t)) := by
                              rw [show ((splitWS r3).1 ++ vs ++ (splitWS r4).1 ++
                                c4 :: ms) ++ t
                                = (splitWS r3).1 ++ (vs ++ ((splitWS r4).1 ++
                                  c4 :: ms ++ t)) by simp]
                              exact splitWS_exact _ _ hu1ws
                                (fun x rr hx => by
                                  rw [hvseq] at hx
                                  simp only [List.cons_append, List.cons.injEq] at hx
                                  exact hx.1 ▸ hvws)
                            rw [hsw3]
                            dsimp only
                            have hnt2 : NumSafe ((splitWS r4).1 ++ c4 :: ms ++ t) := by
                              rw [show (splitWS r4).1 ++ c4 :: ms ++ t
                                = (splitWS r4).1 ++ c4 :: (ms ++ t) by simp]
                              exact numSafe_wsdelim _ _ _ hv1ws
                                (by subst hc4; exact ⟨by decide, by decide, by decide,
                                  by decide⟩)
                            have hgv : vs.length < g := by
                              simp only [List.length_append, List.length_cons] at hf2
                              omega
                            rw [ihv _ vs r4 hsv _ hnt2 g hgv]
                            dsimp only
                            have hsw4 : splitWS ((splitWS r4).1 ++ c4 :: ms ++ t)
                                = ((splitWS r4).1, c4 :: (ms ++ t)) := by
                              rw [show (splitWS r4).1 ++ c4 :: ms ++ t
                                = (splitWS r4).1 ++ (c4 :: (ms ++ t)) by simp]
                              exact splitWS_exact _ _ hv1ws
                                (fun x rr hx => by
                                  cases hx
                                  subst hc4
                                  decide)
                            rw [hsw4]
                            dsimp only
                            rw [if_pos hc4]
                            have hgm : ms.length < g := by
                              simp only [List.length_append, List.length_cons] at hf2
                              omega
                            rw [ihm false r5 ms r6 hsm t g hgm]
                      · rw [if_neg hc4] at hs
                        by_cases hc5 : c4 = '}'
                        · rw [if_pos hc5] at hs
                          simp only [Option.some.injEq, Prod.mk.injEq] at hs
                          obtain ⟨hs1, hs2⟩ := hs
                          subst hs1 hs2
                          match f', hf' with
                          | g+1, hf2 =>
                            simp only [scanMembersF]
                            have hsw : splitWS (((splitWS l).1 ++ c :: (kc ++
                                (splitWS r2).1 ++ c2 :: ((splitWS r3).1 ++ vs ++
                                (splitWS r4).1 ++ [c4]))) ++ t)
                                = ((splitWS l).1, c :: ((kc ++ (splitWS r2).1 ++
                                  c2 :: ((splitWS r3).1 ++ vs ++ (splitWS r4).1 ++
                                  [c4])) ++ t)) := by
                              rw [show ((splitWS l).1 ++ c :: (kc ++ (splitWS r2).1 ++
                                c2 :: ((splitWS r3).1 ++ vs ++ (splitWS r4).1 ++
                                [c4]))) ++ t
                                = (splitWS l).1 ++ (c :: ((kc ++ (splitWS r2).1 ++
                                  c2 :: ((splitWS r3).1 ++ vs ++ (splitWS r4).1 ++
                                  [c4])) ++ t)) by simp]
                              exact splitWS_exact _ _ hp1ws
                                (fun x rr hx => by
                                  cases hx
                                  subst hc2
                                  decide)
                            rw [hsw]
                            dsimp only
                            rw [if_neg hc1, if_pos hc2]
                            rw [show (kc ++ (splitWS r2).1 ++ c2 :: ((splitWS r3).1 ++
                              vs ++ (splitWS r4).1 ++ [c4])) ++ t
                              = kc ++ ((splitWS r2).1 ++ c2 :: ((splitWS r3).1 ++
                                vs ++ (splitWS r4).1 ++ [c4]) ++ t) by simp]
                            rw [scanStr_rescan r1 dec kc r2 hss _]
                            dsimp only
                            have hsw2 : splitWS ((splitWS r2).1 ++ c2 :: ((splitWS r3).1
                                ++ vs ++ (splitWS r4).1 ++ [c4]) ++ t)
                                = ((splitWS r2).1, c2 :: (((splitWS r3).1 ++ vs ++
                                  (splitWS r4).1 ++ [c4]) ++ t)) := by
                              rw [show (splitWS r2).1 ++ c2 :: ((splitWS r3).1 ++ vs ++
                                (splitWS r4).1 ++ [c4]) ++ t
                                = (splitWS r2).1 ++ (c2 :: (((splitWS r3).1 ++ vs ++
                                  (splitWS r4).1 ++ [c4]) ++ t)) by simp]
                              exact splitWS_exact _ _ hq1ws
                                (fun x rr hx => by
                                  cases hx
                                  subst hc3
                                  decide)
                            rw [hsw2]
                            dsimp only
                            rw [if_pos hc3]
                            have hsw3 : splitWS (((splitWS r3).1 ++ vs ++
                                (splitWS r4).1 ++ [c4]) ++ t)
                                = ((splitWS r3).1, vs ++ ((splitWS r4).1 ++
                                  c4 :: t)) := by
                              rw [show ((splitWS r3).1 ++ vs ++ (splitWS r4).1 ++
                                [c4]) ++ t
                                = (splitWS r3).1 ++ (vs ++ ((splitWS r4).1 ++
                                  c4 :: t)) by simp]
                              exact splitWS_exact _ _ hu1ws
                                (fun x rr hx => by
                                  rw [hvseq] at hx
                                  simp only [List.cons_append, List.cons.injEq] at hx
                                  exact hx.1 ▸ hvws)
                            rw [hsw3]
                            dsimp only
                            have hnt2 : NumSafe ((splitWS r4).1 ++ c4 :: t) :=
                              numSafe_wsdelim _ _ _ hv1ws
                                (by subst hc5; exact ⟨by decide, by decide, by decide,
                                  by decide⟩)
                            have hgv : vs.length < g := by
                              simp only [List.length_append, List.length_cons] at hf2
                              omega
                            rw [ihv _ vs r4 hsv _ hnt2 g hgv]
                            dsimp only
                            have hsw4 : splitWS ((splitWS r4).1 ++ c4 :: t)
                                = ((splitWS r4).1, c4 :: t) :=
                              splitWS_exact _ _ hv1ws
                                (fun x rr hx => by
                                  cases hx
                                  subst hc5
                                  decide)
                            rw [hsw4]
                            dsimp only
                            rw [if_neg hc4, if_pos hc5]
                        · rw [if_neg hc5] at hs; simp at hs
                · rw [if_neg hc3] at hs; simp at hs
          · rw [if_neg hc2] at hs; simp at hs
    · -- scanElemsF
      intro first l s r hs t f' hf'
      simp only [scanElemsF] at hs
      match hj : (splitWS l).2 with
      | [] => rw [hj] at hs; simp at hs
      | c :: r1 =>
        rw [hj] at hs
        dsimp only at hs
        have hp1ws : ∀ x ∈ (splitWS l).1, isWS x = true := splitWS_fst_ws l
        by_cases hc1 : c = ']'
        · rw [if_pos hc1] at hs
          by_cases hfirst : first = true
          · rw [if_pos hfirst] at hs
            simp only [Option.some.injEq, Prod.mk.injEq] at hs
            obtain ⟨hs1, hs2⟩ := hs
            subst hs1 hs2 hfirst
            match f', hf' with
            | g+1, hf2 =>
              simp only [scanElemsF]
              have hsw : splitWS (((splitWS l).1 ++ [c]) ++ t)
                  = ((splitWS l).1, c :: t) := by
                rw [show ((splitWS l).1 ++ [c]) ++ t = (splitWS l).1 ++ (c :: t) by simp]
                exact splitWS_exact _ _ hp1ws
                  (fun x rr hx => by
                    cases hx
                    subst hc1
                    decide)
              rw [hsw]
              dsimp only
              rw [if_pos hc1, if_pos trivial]
          · rw [if_neg hfirst] at hs; simp at hs
        · rw [if_neg hc1] at hs
          match hsv : scanVF f (c :: r1) with
          | none => rw [hsv] at hs; simp at hs
          | some (vs, r2) =>
            rw [hsv] at hs
            dsimp only at hs
            obtain ⟨cv, vs2, hvseq, hvws, hvclass⟩ := scanVF_head f _ vs r2 hsv
            obtain ⟨hcvne1, -⟩ := valHead_ne cv hvclass
            match hj2 : (splitWS r2).2 with
            | [] => rw [hj2] at hs; simp at hs
            | c2 :: r3 =>
              rw [hj2] at hs
              dsimp only at hs
              have hq1ws : ∀ x ∈ (splitWS r2).1, isWS x = true := splitWS_fst_ws r2
              by_cases hc3 : c2 = ','
              · rw [if_pos hc3] at hs
                match hse : scanElemsF f false r3 with
                | none => rw [hse] at hs; simp at hs
                | some (es, r4) =>
                  rw [hse] at hs
                  simp only [Option.some.injEq, Prod.mk.injEq] at hs
                  obtain ⟨hs1, hs2⟩ := hs
                  subst hs1 hs2
                  match f', hf' with
                  | g+1, hf2 =>
                    simp only [scanElemsF]
                    have hsw : splitWS (((splitWS l).1 ++ vs ++ (splitWS r2).1 ++
                        c2 :: es) ++ t)
                        = ((splitWS l).1, vs ++ ((splitWS r2).1 ++ c2 :: (es ++ t))) := by
                      rw [show ((splitWS l).1 ++ vs ++ (splitWS r2).1 ++ c2 :: es) ++ t
                        = (splitWS l).1 ++ (vs ++ ((splitWS r2).1 ++ c2 :: (es ++ t)))
                        by simp]
                      exact splitWS_exact _ _ hp1ws
                        (fun x rr hx => by
                          rw [hvseq] at hx
                          simp only [List.cons_append, List.cons.injEq] at hx
                          exact hx.1 ▸ hvws)
                    rw [hsw]
                    dsimp only
                    rw [hvseq]
                    rw [show (cv :: vs2) ++ ((splitWS r2).1 ++ c2 :: (es ++ t))
                      = cv :: (vs2 ++ ((splitWS r2).1 ++ c2 :: (es ++ t))) by simp]
                    dsimp only
                    rw [if_neg hcvne1]
                    have hnt2 : NumSafe ((splitWS r2).1 ++ c2 :: (es ++ t)) :=
                      numSafe_wsdelim _ _ _ hq1ws
                        (by subst hc3; exact ⟨by decide, by decide, by decide, by decide⟩)
                    have hgv : vs.length < g := by
                      simp only [List.length_append, List.length_cons] at hf2
                      omega
                    have hivv := ihv _ vs r2 hsv _ hnt2 g hgv
                    rw [hvseq] at hivv
                    rw [show (cv :: vs2) ++ ((splitWS r2).1 ++ c2 :: (es ++ t))
                      = cv :: (vs2 ++ ((splitWS r2).1 ++ c2 :: (es ++ t))) by simp] at hivv
                    rw [hivv]
                    dsimp only
                    have hsw2 : splitWS ((splitWS r2).1 ++ c2 :: (es ++ t))
                        = ((splitWS r2).1, c2 :: (es ++ t)) :=
                      splitWS_exact _ _ hq1ws
                        (fun x rr hx => by
                          cases hx
                          subst hc3
                          decide)
                    rw [hsw2]
                    dsimp only
                    rw [if_pos hc3]
                    have hge : es.length < g := by
                      simp only [List.length_append, List.length_cons] at hf2
                      omega
                    rw [ihe false r3 es r4 hse t g hge]
              · rw [if_neg hc3] at hs
                by_cases hc4 : c2 = ']'
                · rw [if_pos hc4] at hs
                  simp only [Option.some.injEq, Prod.mk.injEq] at hs
                  obtain ⟨hs1, hs2⟩ := hs
                  subst hs1 hs2
                  match f', hf' with
                  | g+1, hf2 =>
                    simp only [scanElemsF]
                    have hsw : splitWS (((splitWS l).1 ++ vs ++ (splitWS r2).1 ++
                        [c2]) ++ t)
                        = ((splitWS l).1, vs ++ ((splitWS r2).1 ++ c2 :: t)) := by
                      rw [show ((splitWS l).1 ++ vs ++ (splitWS r2).1 ++ [c2]) ++ t
                        = (splitWS l).1 ++ (vs ++ ((splitWS r2).1 ++ c2 :: t)) by simp]
                      exact splitWS_exact _ _ hp1ws
                        (fun x rr hx => by
                          rw [hvseq] at hx
                          simp only [List.cons_append, List.cons.injEq] at hx
                          exact hx.1 ▸ hvws)
                    rw [hsw]
                    dsimp only
                    rw [hvseq]
                    rw [show (cv :: vs2) ++ ((splitWS r2).1 ++ c2 :: t)
                      = cv :: (vs2 ++ ((splitWS r2).1 ++ c2 :: t)) by simp]
                    dsimp only
                    rw [if_neg hcvne1]
                    have hnt2 : NumSafe ((splitWS r2).1 ++ c2 :: t) :=
                      numSafe_wsdelim _ _ _ hq1ws
                        (by subst hc4; exact ⟨by decide, by decide, by decide, by decide⟩)
                    have hgv : vs.length < g := by
                      simp only [List.length_append, List.length_cons] at hf2
                      omega
                    have hivv := ihv _ vs r2 hsv _ hnt2 g hgv
                    rw [hvseq] at hivv
                    rw [show (cv :: vs2) ++ ((splitWS r2).1 ++ c2 :: t)
                      = cv :: (vs2 ++ ((splitWS r2).1 ++ c2 :: t)) by simp] at hivv
                    rw [hivv]
                    dsimp only
                    have hsw2 : splitWS ((splitWS r2).1 ++ c2 :: t)
                        = ((splitWS r2).1, c2 :: t) :=
                      splitWS_exact _ _ hq1ws
                        (fun x rr hx => by
                          cases hx
                          subst hc4
                          decide)
                    rw [hsw2]
                    dsimp only
                    rw [if_neg hc3, if_pos hc4]
                · rw [if_neg hc4] at hs; simp at hs

/-! ## A reference parser for one top-level JSON object

`parseTopObject` accepts exactly the byte streams that are a single JSON
object (using the same lexical routines as the decoder model) followed by
whitespace, and returns the ordered list of (decoded key, raw value span)
pairs.  This is the "parses as a JSON object" notion used by the claims. -/

/-- Parser mode: `fields allowClose` expects a key (or, when `allowClose`,
the closing brace); `sep` expects the separator after a member's value
(a comma, or the closing brace). -/
inductive PMode
  | fields (allowClose : Bool)
  | sep
  deriving DecidableEq, Repr

def parseFF : Nat → PMode → List Char → Option (List (List Char × List Char) × List Char)
  | 0, _, _ => none
  | f+1, .fields allowClose, l =>
    match skipWS l with
    | [] => none
    | c :: r =>
      if c = '}' then (if allowClose then some ([], r) else none)
      else if c = '"' then
        match scanStr r with
        | none => none
        | some (k, _, r2) =>
          match skipWS r2 with
          | [] => none
          | c2 :: r3 =>
            if c2 = ':' then
              match scanValue (skipWS r3) with
              | none => none
              | some (vs, r4) =>
                (parseFF f .sep r4).map fun p => ((k, vs) :: p.1, p.2)
            else none
      else none
  | f+1, .sep, l =>
    match skipWS l with
    | [] => none
    | c :: r =>
      if c = ',' then parseFF f (.fields false) r
      else if c = '}' then some ([], r)
      else none

def parseTopObject (l : List Char) : Option (List (List Char × List Char)) :=
  match skipWS l with
  | [] => none
  | c :: r =>
    if c = '{' then
      match parseFF (l.length + 1) (.fields true) r with
      | some (kvs, rest) => if skipWS rest = [] then some kvs else none
      | none => none
    else none

/-! ## The streaming rewriter `copyWithAttachments` (db.go 321–386)

A faithful transcription of the Go function over the decoder model above.
States track `json.Decoder`'s `tokenState` as the rewriter drives it:
`objStart` right after the object's `{`, `objComma` after each member's
value, and `topAfter` once the top-level object has been closed.  `attEnc`
is the byte sequence `json.NewEncoder(w).Encode(att)` writes (the encoded
replacement plus a newline).  The result carries the bytes written so far
and whether the function returned nil (`ok = true`) or an error. -/

def attachmentsKey : List Char := ['_', 'a', 't', 't', 'a', 'c', 'h', 'm', 'e', 'n', 't', 's']

structure CwaOut where
  out : List Char
  ok : Bool
  deriving DecidableEq, Repr

inductive RwSt | objStart | objComma | topAfter
  deriving DecidableEq, Repr

def rwLoopF (attEnc : List Char) : Nat → RwSt → Bool → List Char → List Char → Option CwaOut
  | 0, _, _, _, _ => none
  | f+1, st, first, inp, acc =>
    match skipWS inp with
    | [] => some ⟨acc, true⟩
    | c :: r =>
      match st with
      | .objStart =>
        if c = '}' then rwLoopF attEnc f .topAfter first r (acc ++ ['}'])
        else if c = '"' then
          match scanStr r with
          | none => some ⟨acc, false⟩
          | some (k, _, r2) =>
            let acc2 := acc ++ (if first then [] else [',']) ++ '"' :: (k ++ ['"', ':'])
            match skipWS r2 with
            | [] => some ⟨acc2, false⟩
            | c2 :: r3 =>
              if c2 = ':' then
                match scanValue (skipWS r3) with
                | none => some ⟨acc2, false⟩
                | some (vs, r4) =>
                  if k = attachmentsKey then some ⟨acc2 ++ attEnc ++ r4, true⟩
                  else rwLoopF attEnc f .objComma false r4 (acc2 ++ vs)
              else some ⟨acc2, false⟩
        else some ⟨acc, false⟩
      | .objComma =>
        if c = ',' then
          match skipWS r with
          | [] => some ⟨acc, true⟩
          | c2 :: r2 =>
            if c2 = '"' then
              match scanStr r2 with
              | none => some ⟨acc, false⟩
              | some (k, _, r3) =>
                let acc2 := acc ++ (if first then [] else [',']) ++ '"' :: (k ++ ['"', ':'])
                match skipWS r3 with
                | [] => some ⟨acc2, false⟩
                | c3 :: r4 =>
                  if c3 = ':' then
                    match scanValue (skipWS r4) with
                    | none => some ⟨acc2, false⟩
                    | some (vs, r5) =>
                      if k = attachmentsKey then some ⟨acc2 ++ attEnc ++ r5, true⟩
                      else rwLoopF attEnc f .objComma false r5 (acc2 ++ vs)
                  else some ⟨acc2, false⟩
            else some ⟨acc, false⟩
        else if c = '}' then rwLoopF attEnc f .topAfter first r (acc ++ ['}'])
        else some ⟨acc, false⟩
      | .topAfter =>
        if c = '"' then
          match scanStr r with
          | none => some ⟨acc, false⟩
          | some (k, _, r2) =>
            let acc2 := acc ++ (if first then [] else [',']) ++ '"' :: (k ++ ['"', ':'])
            match scanValue (skipWS r2) with
            | none => some ⟨acc2, false⟩
            | some (vs, r3) =>
              if k = attachmentsKey then some ⟨acc2 ++ attEnc ++ r3, true⟩
              else rwLoopF attEnc f .topAfter false r3 (acc2 ++ vs)
        else if c = '{' ∨ c = '[' ∨ c = '}' ∨ c = ']' ∨ c = ':' ∨ c = ',' then
          some ⟨acc, false⟩
        else
          match scanValue (c :: r) with
          | none => some ⟨acc, false⟩
          | some (_, r2) => rwLoopF attEnc f .topAfter first r2 acc

/-- The JSON stream rewriter `copyWithAttachments`, given the already
encoded replacement bytes (`json.NewEncoder.Encode` output including its
trailing newline).  The fuel supplied to the loop is shown sufficient by
`rwLoopF_adequate`, so the `none` fallback is unreachable. -/
def copyWA (inp : List Char) (attEnc : List Char) : CwaOut :=
  match skipWS inp with
  | [] => ⟨['<', 'n', 'i', 'l', '>'], true⟩
  | c :: r =>
    if c = '{' then (rwLoopF attEnc (inp.length + 1) .objStart true r ['{']).getD ⟨[], false⟩
    else ⟨[], false⟩

/-! ## Length accounting and fuel normalization -/

theorem skipWS_cons_len {l : List Char} {c : Char} {r : List Char}
    (h : skipWS l = c :: r) : r.length < l.length := by
  have := skipWS_length_le l
  rw [h] at this
  simpa using Nat.lt_of_succ_le this

theorem scanStr_split {l dec cons rest : List Char}
    (h : scanStr l = some (dec, cons, rest)) : l = cons ++ rest ∧ cons ≠ [] :=
  scanStrF_split _ l dec cons rest h

theorem scanStr_rest_len {l dec cons rest : List Char}
    (h : scanStr l = some (dec, cons, rest)) : rest.length < l.length := by
  obtain ⟨hl, hne⟩ := scanStr_split h
  rw [hl]
  simp only [List.length_append]
  have : 0 < cons.length := List.length_pos.mpr hne
  omega

theorem scanValue_split {l s r : List Char}
    (h : scanValue l = some (s, r)) : l = s ++ r ∧ s ≠ [] :=
  (scanF_split _).1 l s r h

theorem scanValue_rest_len {l s r : List Char}
    (h : scanValue l = some (s, r)) : r.length < l.length := by
  obtain ⟨hl, hne⟩ := scanValue_split h
  rw [hl]
  simp only [List.length_append]
  have : 0 < s.length := List.length_pos.mpr hne
  omega

/-- A field step of the parser strictly consumes input: from `l`, the input
remaining after the member's value is strictly shorter. -/
theorem field_step_len {l : List Char} {c : Char} {r kk cons r2 : List Char}
    {c2 : Char} {r3 vs r4 : List Char}
    (hsw : skipWS l = c :: r) (hk : scanStr r = some (kk, cons, r2))
    (hsw2 : skipWS r2 = c2 :: r3) (hv : scanValue (skipWS r3) = some (vs, r4)) :
    r4.length < l.length := by
  have h1 := skipWS_cons_len hsw
  have h2 := scanStr_rest_len hk
  have h3 := skipWS_cons_len hsw2
  have h4 := scanValue_rest_len hv
  have h5 := skipWS_length_le r3
  omega

/-- Parser fuel normalization: a successful parse at any fuel also succeeds
at every fuel exceeding the input length. -/
theorem parseFF_norm : ∀ f m l x, parseFF f m l = some x →
    ∀ g, l.length < g → parseFF g m l = some x := by
  intro f
  induction f with
  | zero => intro m l x h; simp [parseFF] at h
  | succ f ih =>
    intro m l x h g hg
    obtain ⟨g', rfl⟩ : ∃ g', g = g' + 1 := ⟨g - 1, by omega⟩
    match m with
    | .fields ac =>
      simp only [parseFF] at h ⊢
      match hsw : skipWS l with
      | [] => rw [hsw] at h; simp at h
      | c :: r =>
        rw [hsw] at h
        dsimp only at h ⊢
        by_cases h1 : c = '}'
        · rw [if_pos h1] at h ⊢; exact h
        rw [if_neg h1] at h ⊢
        by_cases h2 : c = '"'
        · rw [if_pos h2] at h ⊢
          match hk : scanStr r with
          | none => rw [hk] at h; simp at h
          | some (kk, cons, r2) =>
            rw [hk] at h
            dsimp only at h ⊢
            match hsw2 : skipWS r2 with
            | [] => rw [hsw2] at h; simp at h
            | c2 :: r3 =>
              rw [hsw2] at h
              dsimp only at h ⊢
              by_cases h3 : c2 = ':'
              · rw [if_pos h3] at h ⊢
                match hv : scanValue (skipWS r3) with
                | none => rw [hv] at h; simp at h
                | some (vs, r4) =>
                  rw [hv] at h
                  dsimp only at h ⊢
                  match hrec : parseFF f PMode.sep r4 with
                  | none => rw [hrec] at h; simp at h
                  | some p =>
                    have hlen : r4.length < g' := by
                      have := field_step_len hsw hk hsw2 hv
                      omega
                    rw [ih _ _ _ hrec g' hlen]
                    rw [hrec] at h
                    exact h
              · rw [if_neg h3] at h; simp at h
        · rw [if_neg h2] at h; simp at h
    | .sep =>
      simp only [parseFF] at h ⊢
      match hsw : skipWS l with
      | [] => rw [hsw] at h; simp at h
      | c :: r =>
        rw [hsw] at h
        dsimp only at h ⊢
        by_cases h1 : c = ','
        · rw [if_pos h1] at h ⊢
          have hlen : r.length < g' := by
            have := skipWS_cons_len hsw
            omega
          exact ih _ _ _ h g' hlen
        · rw [if_neg h1] at h ⊢
          by_cases h2 : c = '}'
          · rw [if_pos h2] at h ⊢; exact h
          · rw [if_neg h2] at h; simp at h

/-! ## The rewriter's run over a parsed field list

`renderFields` is the byte sequence the rewriter emits for a list of
members: decoded key re-quoted, a colon, the member's raw value span, with
commas separating members (and one before the first member unless it is
the first member of the object). -/

def renderField (k vs : List Char) : List Char := '"' :: (k ++ '"' :: ':' :: vs)

def renderFields : Bool → List (List Char × List Char) → List Char
  | _, [] => []
  | first, (k, vs) :: rest =>
    (if first then [] else [',']) ++ renderField k vs ++ renderFields false rest

/-- Running the rewriter over an input whose members parse and contain no
target key: every member is re-emitted, the close brace is written, and
the loop continues in the after-object state on the parser's rest. -/
theorem rwLoop_notarget : ∀ f a,
    (∀ l kvs rest, parseFF f (.fields true) l = some (kvs, rest) →
      (∀ kv ∈ kvs, kv.1 ≠ attachmentsKey) →
      ∀ first acc g, l.length < g →
        ∃ g2, rest.length < g2 ∧
          rwLoopF a g .objStart first l acc
            = rwLoopF a g2 .topAfter (first && kvs.isEmpty) rest
                (acc ++ renderFields first kvs ++ ['}'])) ∧
    (∀ l kvs rest, parseFF f .sep l = some (kvs, rest) →
      (∀ kv ∈ kvs, kv.1 ≠ attachmentsKey) →
      ∀ acc g, l.length < g →
        ∃ g2, rest.length < g2 ∧
          rwLoopF a g .objComma false l acc
            = rwLoopF a g2 .topAfter false rest
                (acc ++ renderFields false kvs ++ ['}'])) := by
  intro f
  induction f using Nat.strong_induction_on with
  | _ f ih =>
  intro a
  constructor
  · intro l kvs rest h hnt first acc g hg
    match f, h with
    | f1+1, h =>
      obtain ⟨g1, rfl⟩ : ∃ g1, g = g1 + 1 := ⟨g - 1, by omega⟩
      simp only [parseFF] at h
      match hsw : skipWS l with
      | [] => simp [hsw] at h
      | c :: r =>
        try rw [hsw] at h
        dsimp only at h
        simp only [rwLoopF]
        try rw [hsw]
        dsimp only
        by_cases h1 : c = '}'
        · rw [if_pos h1] at h ⊢
          simp only [if_true, reduceIte, Option.some.injEq, Prod.mk.injEq] at h
          obtain ⟨hkv, hrest⟩ := h
          subst hkv hrest
          refine ⟨g1, ?_, ?_⟩
          · have := skipWS_cons_len hsw; omega
          · simp [renderFields]
        · rw [if_neg h1] at h ⊢
          by_cases h2 : c = '"'
          · rw [if_pos h2] at h ⊢
            match hk : scanStr r with
            | none => simp [hk] at h
            | some (k, cons, r2) =>
              try rw [hk] at h
              try rw [hk]
              dsimp only at h ⊢
              match hsw2 : skipWS r2 with
              | [] => simp [hsw2] at h
              | c2 :: r3 =>
                try rw [hsw2] at h
                try rw [hsw2]
                dsimp only at h ⊢
                by_cases h3 : c2 = ':'
                · rw [if_pos h3] at h ⊢
                  match hv : scanValue (skipWS r3) with
                  | none => simp [hv] at h
                  | some (vs, r4) =>
                    try rw [hv] at h
                    try rw [hv]
                    dsimp only at h ⊢
                    match hrec : parseFF f1 PMode.sep r4 with
                    | none => simp [hrec] at h
                    | some (post, rest2) =>
                      try rw [hrec] at h
                      simp only [Option.map_some', Option.some.injEq,
                        Prod.mk.injEq] at h
                      obtain ⟨hkv, hrest⟩ := h
                      subst hkv hrest
                      have hkne : k ≠ attachmentsKey :=
                        hnt (k, vs) (by simp)
                      rw [if_neg hkne]
                      have hlen : r4.length < g1 := by
                        have := field_step_len hsw hk hsw2 hv
                        omega
                      obtain ⟨g2, hg2, heq⟩ :=
                        ((ih f1 (by omega)) a).2 r4 post rest2 hrec
                          (fun kv hkv => hnt kv (by simp [hkv]))
                          ((acc ++ (if first then [] else [',']) ++
                            '"' :: (k ++ ['"', ':'])) ++ vs) g1 hlen
                      refine ⟨g2, hg2, ?_⟩
                      simp only [List.isEmpty_cons, Bool.and_false]
                      rw [heq]
                      congr 1
                      simp [renderFields, renderField]
                · rw [if_neg h3] at h; simp at h
          · rw [if_neg h2] at h; simp at h
  · intro l kvs rest h hnt acc g hg
    match f, h with
    | f1+1, h =>
      obtain ⟨g1, rfl⟩ : ∃ g1, g = g1 + 1 := ⟨g - 1, by omega⟩
      simp only [parseFF] at h
      match hsw : skipWS l with
      | [] => simp [hsw] at h
      | c :: r =>
        try rw [hsw] at h
        dsimp only at h
        simp only [rwLoopF]
        try rw [hsw]
        dsimp only
        by_cases h1 : c = ','
        · rw [if_pos h1] at h ⊢
          match f1, h with
          | f2+1, h =>
            simp only [parseFF] at h
            match hsw2 : skipWS r with
            | [] => simp [hsw2] at h
            | c2 :: r2 =>
              try rw [hsw2] at h
              try rw [hsw2]
              dsimp only at h ⊢
              by_cases h2 : c2 = '}'
              · rw [if_pos h2] at h; simp at h
              · rw [if_neg h2] at h
                by_cases h3 : c2 = '"'
                · rw [if_pos h3] at h ⊢
                  match hk : scanStr r2 with
                  | none => simp [hk] at h
                  | some (k, cons, r3) =>
                    try rw [hk] at h
                    try rw [hk]
                    dsimp only at h ⊢
                    match hsw3 : skipWS r3 with
                    | [] => simp [hsw3] at h
                    | c3 :: r4 =>
                      try rw [hsw3] at h
                      try rw [hsw3]
                      dsimp only at h ⊢
                      by_cases h4 : c3 = ':'
                      · rw [if_pos h4] at h ⊢
                        match hv : scanValue (skipWS r4) with
                        | none => simp [hv] at h
                        | some (vs, r5) =>
                          try rw [hv] at h
                          try rw [hv]
                          dsimp only at h ⊢
                          match hrec : parseFF f2 PMode.sep r5 with
                          | none => simp [hrec] at h
                          | some (post, rest2) =>
                            try rw [hrec] at h
                            simp only [Option.map_some', Option.some.injEq,
                              Prod.mk.injEq] at h
                            obtain ⟨hkv, hrest⟩ := h
                            subst hkv hrest
                            have hkne : k ≠ attachmentsKey :=
                              hnt (k, vs) (by simp)
                            rw [if_neg hkne]
                            have hlen : r5.length < g1 := by
                              have h5 := skipWS_cons_len hsw
                              have h6 := field_step_len hsw2 hk hsw3 hv
                              omega
                            obtain ⟨g2, hg2, heq⟩ :=
                              ((ih f2 (by omega)) a).2 r5 post rest2 hrec
                                (fun kv hkv => hnt kv (by simp [hkv]))
                                ((acc ++ [','] ++
                                  '"' :: (k ++ ['"', ':'])) ++ vs) g1 hlen
                            refine ⟨g2, hg2, ?_⟩
                            simp only [Bool.false_eq_true, if_false]
                            rw [heq]
                            congr 1
                            simp [renderFields, renderField]
                      · rw [if_neg h4] at h; simp at h
                · rw [if_neg h3] at h; simp at h
        · rw [if_neg h1] at h ⊢
          by_cases h2 : c = '}'
          · rw [if_pos h2] at h ⊢
            simp only [Option.some.injEq, Prod.mk.injEq] at h
            obtain ⟨hkv, hrest⟩ := h
            subst hkv hrest
            refine ⟨g1, ?_, ?_⟩
            · have := skipWS_cons_len hsw; omega
            · simp [renderFields]
          · rw [if_neg h2] at h; simp at h

/-- The input consumed by one member step is a prefix: the remainder after
the member's value is a suffix of the input. -/
theorem field_step_suffix {l : List Char} {c : Char} {r kk cons r2 : List Char}
    {c2 : Char} {r3 vs r4 : List Char}
    (hsw : skipWS l = c :: r) (hk : scanStr r = some (kk, cons, r2))
    (hsw2 : skipWS r2 = c2 :: r3) (hv : scanValue (skipWS r3) = some (vs, r4)) :
    ∃ w, l = w ++ r4 := by
  obtain ⟨w0, hw0, -⟩ := skipWS_decomp l
  obtain ⟨hr, -⟩ := scanStr_split hk
  obtain ⟨w1, hw1, -⟩ := skipWS_decomp r2
  obtain ⟨w2, hw2, -⟩ := skipWS_decomp r3
  obtain ⟨hv2, -⟩ := scanValue_split hv
  refine ⟨w0 ++ c :: cons ++ w1 ++ c2 :: w2 ++ vs, ?_⟩
  conv_lhs => rw [hw0, hsw, hr, hw1, hsw2, hw2, hv2]
  simp

/-- Running the rewriter over an input whose members parse, where the
member list contains the target key (first occurrence isolated): the
members before the target are re-emitted, then the target key and the
replacement bytes, and the function returns immediately with the rest of
the input appended verbatim.  The rest (`tail`) is a suffix of the input
and still parses from separator mode to the post-target members. -/
theorem rwLoop_target : ∀ f a,
    (∀ l kvs rest, parseFF f (.fields true) l = some (kvs, rest) →
      ∀ pre v post, kvs = pre ++ (attachmentsKey, v) :: post →
      (∀ kv ∈ pre, kv.1 ≠ attachmentsKey) →
      ∀ first acc g, l.length < g →
        ∃ tail fc, parseFF fc .sep tail = some (post, rest) ∧
          (∃ w, l = w ++ tail) ∧
          rwLoopF a g .objStart first l acc
            = some ⟨acc ++ renderFields first (pre ++ [(attachmentsKey, [])])
                ++ a ++ tail, true⟩) ∧
    (∀ l kvs rest, parseFF f .sep l = some (kvs, rest) →
      ∀ pre v post, kvs = pre ++ (attachmentsKey, v) :: post →
      (∀ kv ∈ pre, kv.1 ≠ attachmentsKey) →
      ∀ acc g, l.length < g →
        ∃ tail fc, parseFF fc .sep tail = some (post, rest) ∧
          (∃ w, l = w ++ tail) ∧
          rwLoopF a g .objComma false l acc
            = some ⟨acc ++ renderFields false (pre ++ [(attachmentsKey, [])])
                ++ a ++ tail, true⟩) := by
  intro f
  induction f using Nat.strong_induction_on with
  | _ f ih =>
  intro a
  constructor
  · intro l kvs rest h pre v post hkvs hpre first acc g hg
    match f, h with
    | f1+1, h =>
      obtain ⟨g1, rfl⟩ : ∃ g1, g = g1 + 1 := ⟨g - 1, by omega⟩
      simp only [parseFF] at h
      match hsw : skipWS l with
      | [] => simp [hsw] at h
      | c :: r =>
        try rw [hsw] at h
        dsimp only at h
        simp only [rwLoopF]
        try rw [hsw]
        dsimp only
        by_cases h1 : c = '}'
        · rw [if_pos h1] at h
          simp only [if_true, reduceIte, Option.some.injEq, Prod.mk.injEq] at h
          obtain ⟨hkv, hrest⟩ := h
          exfalso
          rw [← hkv] at hkvs
          cases pre <;> simp at hkvs
        · rw [if_neg h1] at h ⊢
          by_cases h2 : c = '"'
          · rw [if_pos h2] at h ⊢
            match hk : scanStr r with
            | none => simp [hk] at h
            | some (k, cons, r2) =>
              try rw [hk] at h
              try rw [hk]
              dsimp only at h ⊢
              match hsw2 : skipWS r2 with
              | [] => simp [hsw2] at h
              | c2 :: r3 =>
                try rw [hsw2] at h
                try rw [hsw2]
                dsimp only at h ⊢
                by_cases h3 : c2 = ':'
                · rw [if_pos h3] at h ⊢
                  match hv : scanValue (skipWS r3) with
                  | none => simp [hv] at h
                  | some (vs, r4) =>
                    try rw [hv] at h
                    try rw [hv]
                    dsimp only at h ⊢
                    match hrec : parseFF f1 PMode.sep r4 with
                    | none => simp [hrec] at h
                    | some (post0, rest2) =>
                      try rw [hrec] at h
                      simp only [Option.map_some', Option.some.injEq,
                        Prod.mk.injEq] at h
                      obtain ⟨hkv, hrest⟩ := h
                      subst hrest
                      rw [← hkv] at hkvs
                      match pre, hkvs with
                      | [], hkvs =>
                        simp only [List.nil_append, List.cons.injEq,
                          Prod.mk.injEq] at hkvs
                        obtain ⟨⟨hk1, hv1⟩, hpost⟩ := hkvs
                        subst hk1 hpost
                        rw [if_pos rfl]
                        refine ⟨r4, f1, hrec, field_step_suffix hsw hk hsw2 hv, ?_⟩
                        simp [renderFields, renderField]
                      | p :: pre2, hkvs =>
                        simp only [List.cons_append, List.cons.injEq] at hkvs
                        obtain ⟨hp, hpost⟩ := hkvs
                        subst hp
                        have hkne : k ≠ attachmentsKey :=
                          hpre (k, vs) (by simp)
                        rw [if_neg hkne]
                        have hlen : r4.length < g1 := by
                          have := field_step_len hsw hk hsw2 hv
                          omega
                        obtain ⟨tail, fc, hc, hwsuf, heq⟩ :=
                          ((ih f1 (by omega)) a).2 r4 post0 rest2 hrec
                            pre2 v post hpost
                            (fun kv hkv2 => hpre kv (by simp [hkv2]))
                            ((acc ++ (if first then [] else [',']) ++
                              '"' :: (k ++ ['"', ':'])) ++ vs) g1 hlen
                        obtain ⟨w2, hw2⟩ := hwsuf
                        refine ⟨tail, fc, hc, ?_, ?_⟩
                        · obtain ⟨w1, hw1⟩ := field_step_suffix hsw hk hsw2 hv
                          exact ⟨w1 ++ w2, by rw [hw1, hw2]; simp⟩
                        · rw [heq]
                          congr 1
                          simp [renderFields, renderField]
                · rw [if_neg h3] at h; simp at h
          · rw [if_neg h2] at h; simp at h
  · intro l kvs rest h pre v post hkvs hpre acc g hg
    match f, h with
    | f1+1, h =>
      obtain ⟨g1, rfl⟩ : ∃ g1, g = g1 + 1 := ⟨g - 1, by omega⟩
      simp only [parseFF] at h
      match hsw : skipWS l with
      | [] => simp [hsw] at h
      | c :: r =>
        try rw [hsw] at h
        dsimp only at h
        simp only [rwLoopF]
        try rw [hsw]
        dsimp only
        by_cases h1 : c = ','
        · rw [if_pos h1] at h ⊢
          match f1, h with
          | f2+1, h =>
            simp only [parseFF] at h
            match hsw2 : skipWS r with
            | [] => simp [hsw2] at h
            | c2 :: r2 =>
              try rw [hsw2] at h
              try rw [hsw2]
              dsimp only at h ⊢
              by_cases h2 : c2 = '}'
              · rw [if_pos h2] at h; simp at h
              · rw [if_neg h2] at h
                by_cases h3 : c2 = '"'
                · rw [if_pos h3] at h ⊢
                  match hk : scanStr r2 with
                  | none => simp [hk] at h
                  | some (k, cons, r3) =>
                    try rw [hk] at h
                    try rw [hk]
                    dsimp only at h ⊢
                    match hsw3 : skipWS r3 with
                    | [] => simp [hsw3] at h
                    | c3 :: r4 =>
                      try rw [hsw3] at h
                      try rw [hsw3]
                      dsimp only at h ⊢
                      by_cases h4 : c3 = ':'
                      · rw [if_pos h4] at h ⊢
                        match hv : scanValue (skipWS r4) with
                        | none => simp [hv] at h
                        | some (vs, r5) =>
                          try rw [hv] at h
                          try rw [hv]
                          dsimp only at h ⊢
                          match hrec : parseFF f2 PMode.sep r5 with
                          | none => simp [hrec] at h
                          | some (post0, rest2) =>
                            try rw [hrec] at h
                            simp only [Option.map_some', Option.some.injEq,
                              Prod.mk.injEq] at h
                            obtain ⟨hkv, hrest⟩ := h
                            subst hrest
                            rw [← hkv] at hkvs
                            have hsuf : ∃ w, l = w ++ r5 := by
                              obtain ⟨w0, hw0, -⟩ := skipWS_decomp l
                              obtain ⟨w1, hw1⟩ := field_step_suffix hsw2 hk hsw3 hv
                              refine ⟨w0 ++ c :: w1, ?_⟩
                              conv_lhs => rw [hw0, hsw, hw1]
                              simp
                            match pre, hkvs with
                            | [], hkvs =>
                              simp only [List.nil_append, List.cons.injEq,
                                Prod.mk.injEq] at hkvs
                              obtain ⟨⟨hk1, hv1⟩, hpost⟩ := hkvs
                              subst hk1 hpost
                              rw [if_pos rfl]
                              refine ⟨r5, f2, hrec, hsuf, ?_⟩
                              simp [renderFields, renderField]
                            | p :: pre2, hkvs =>
                              simp only [List.cons_append, List.cons.injEq] at hkvs
                              obtain ⟨hp, hpost⟩ := hkvs
                              subst hp
                              have hkne : k ≠ attachmentsKey :=
                                hpre (k, vs) (by simp)
                              rw [if_neg hkne]
                              have hlen : r5.length < g1 := by
                                have h5 := skipWS_cons_len hsw
                                have h6 := field_step_len hsw2 hk hsw3 hv
                                omega
                              obtain ⟨tail, fc, hc, hwsuf, heq⟩ :=
                                ((ih f2 (by omega)) a).2 r5 post0 rest2 hrec
                                  pre2 v post hpost
                                  (fun kv hkv2 => hpre kv (by simp [hkv2]))
                                  ((acc ++ [','] ++
                                    '"' :: (k ++ ['"', ':'])) ++ vs) g1 hlen
                              obtain ⟨w2, hw2⟩ := hwsuf
                              refine ⟨tail, fc, hc, ?_, ?_⟩
                              · obtain ⟨w1, hw1⟩ := hsuf
                                exact ⟨w1 ++ w2, by rw [hw1, hw2]; simp⟩
                              · simp only [Bool.false_eq_true, if_false]
                                rw [heq]
                                congr 1
                                simp [renderFields, renderField]
                      · rw [if_neg h4] at h; simp at h
                · rw [if_neg h3] at h; simp at h
        · rw [if_neg h1] at h ⊢
          by_cases h2 : c = '}'
          · rw [if_pos h2] at h
            simp only [Option.some.injEq, Prod.mk.injEq] at h
            obtain ⟨hkv, hrest⟩ := h
            exfalso
            rw [← hkv] at hkvs
            cases pre <;> simp at hkvs
          · rw [if_neg h2] at h; simp at h

/-! ## Reparsing the rewriter's output

Plain characters survive the decode–requote round trip; value spans taken
from a successful scan rescan identically (`scanF_rescan`), so the emitted
stream parses back to the member list. -/

def plainChar (c : Char) : Bool :=
  !(c == '"') && !(c == '\\') && decide (0x20 ≤ c.toNat)

theorem strStep_plain (c : Char) (t : List Char) (h : plainChar c = true) :
    strStep (c :: t) = some (some c, 1) := by
  simp only [plainChar, Bool.and_eq_true, Bool.not_eq_true', beq_eq_false_iff_ne,
    ne_eq, decide_eq_true_eq] at h
  obtain ⟨⟨h1, h2⟩, h3⟩ := h
  simp only [strStep]
  rw [if_neg h1, if_neg h2, if_neg (by omega)]

theorem scanStrF_plain : ∀ k, (∀ c ∈ k, plainChar c = true) →
    ∀ t f, k.length + 1 ≤ f →
      scanStrF f (k ++ '"' :: t) = some (k, k ++ ['"'], t) := by
  intro k
  induction k with
  | nil =>
    intro _ t f hf
    obtain ⟨f1, rfl⟩ : ∃ f1, f = f1 + 1 := ⟨f - 1, by omega⟩
    simp [scanStrF, strStep]
  | cons c k2 ih =>
    intro hp t f hf
    obtain ⟨f1, rfl⟩ : ∃ f1, f = f1 + 1 := ⟨f - 1, by omega⟩
    have hstep : strStep ((c :: k2) ++ '"' :: t) = some (some c, 1) :=
      strStep_plain c _ (hp c (by simp))
    simp only [scanStrF, hstep]
    rw [show ((c :: k2) ++ '"' :: t).drop 1 = k2 ++ '"' :: t from rfl,
      ih (fun x hx => hp x (by simp [hx])) t f1 (by simpa using hf)]
    simp

theorem scanStr_plain (k t : List Char) (hp : ∀ c ∈ k, plainChar c = true) :
    scanStr (k ++ '"' :: t) = some (k, k ++ ['"'], t) :=
  scanStrF_plain k hp t _ (by simp only [List.length_append, List.length_cons]; omega)

/-- A value span: rescans to itself before any non-number-extending
continuation, with any sufficient fuel. -/
def ValSpan (s : List Char) : Prop :=
  ∀ t f, NumSafe t → s.length < f → scanVF f (s ++ t) = some (s, t)

theorem scanValue_valSpan {l s r : List Char}
    (h : scanValue l = some (s, r)) : ValSpan s :=
  fun t f hnt hf => (scanF_rescan (l.length + 1)).1 l s r h t hnt f hf

theorem valSpan_head {s : List Char} (h : ValSpan s) :
    ∃ cv s2, s = cv :: s2 ∧ isWS cv = false := by
  have h0 : scanVF (s.length + 1) (s ++ []) = some (s, []) :=
    h [] (s.length + 1) (fun c r hcr => by simp at hcr) (by omega)
  obtain ⟨cv, s2, hs, hws, -⟩ := scanVF_head _ _ _ _ h0
  exact ⟨cv, s2, hs, hws⟩

theorem parseFF_sep_ws (w tail : List Char) (f : Nat)
    (hw : ∀ c ∈ w, isWS c = true) :
    parseFF (f+1) .sep (w ++ tail) = parseFF (f+1) .sep tail := by
  simp only [parseFF, skipWS_append_ws w tail hw]

/-- Every value span in a parse is a `ValSpan`. -/
theorem parseFF_valspans : ∀ f m l kvs rest,
    parseFF f m l = some (kvs, rest) → ∀ kv ∈ kvs, ValSpan kv.2 := by
  intro f
  induction f with
  | zero => intro m l kvs rest h; simp [parseFF] at h
  | succ f ih =>
    intro m l kvs rest h
    match m with
    | .fields ac =>
      simp only [parseFF] at h
      match hsw : skipWS l with
      | [] => simp [hsw] at h
      | c :: r =>
        try rw [hsw] at h
        dsimp only at h
        by_cases h1 : c = '}'
        · rw [if_pos h1] at h
          by_cases hac : ac = true
          · subst hac
            simp only [if_true, reduceIte, Option.some.injEq, Prod.mk.injEq] at h
            obtain ⟨hkv, -⟩ := h
            rw [← hkv]
            intro kv hkv2
            simp at hkv2
          · rw [if_neg hac] at h; simp at h
        · rw [if_neg h1] at h
          by_cases h2 : c = '"'
          · rw [if_pos h2] at h
            match hk : scanStr r with
            | none => simp [hk] at h
            | some (k, cons, r2) =>
              try rw [hk] at h
              dsimp only at h
              match hsw2 : skipWS r2 with
              | [] => simp [hsw2] at h
              | c2 :: r3 =>
                try rw [hsw2] at h
                dsimp only at h
                by_cases h3 : c2 = ':'
                · rw [if_pos h3] at h
                  match hv : scanValue (skipWS r3) with
                  | none => simp [hv] at h
                  | some (vs, r4) =>
                    try rw [hv] at h
                    dsimp only at h
                    match hrec : parseFF f PMode.sep r4 with
                    | none => simp [hrec] at h
                    | some (post0, rest2) =>
                      try rw [hrec] at h
                      simp only [Option.map_some', Option.some.injEq,
                        Prod.mk.injEq] at h
                      obtain ⟨hkv, -⟩ := h
                      rw [← hkv]
                      intro kv hkv2
                      rcases List.mem_cons.mp hkv2 with hkv3 | hkv3
                      · subst hkv3
                        exact scanValue_valSpan hv
                      · exact ih _ _ _ _ hrec kv hkv3
                · rw [if_neg h3] at h; simp at h
          · rw [if_neg h2] at h; simp at h
    | .sep =>
      simp only [parseFF] at h
      match hsw : skipWS l with
      | [] => simp [hsw] at h
      | c :: r =>
        try rw [hsw] at h
        dsimp only at h
        by_cases h1 : c = ','
        · rw [if_pos h1] at h
          exact ih _ _ _ _ h
        · rw [if_neg h1] at h
          by_cases h2 : c = '}'
          · rw [if_pos h2] at h
            simp only [Option.some.injEq, Prod.mk.injEq] at h
            obtain ⟨hkv, -⟩ := h
            rw [← hkv]
            intro kv hkv2
            simp at hkv2
          · rw [if_neg h2] at h; simp at h

/-- The emitted member stream parses back to the member list (completeness):
plain keys requote–decode to themselves and value spans rescan, so parsing
the rendered members followed by a separator-mode continuation yields the
members plus whatever the continuation yields. -/
theorem renderFields_reparse : ∀ kvs : List (List Char × List Char), kvs ≠ [] →
    (∀ kv ∈ kvs, (∀ c ∈ kv.1, plainChar c = true) ∧ ValSpan kv.2) →
    ∀ tailB post rest fc, NumSafe tailB →
      parseFF fc .sep tailB = some (post, rest) →
      ∀ ac g, (renderFields true kvs ++ tailB).length < g →
        parseFF g (.fields ac) (renderFields true kvs ++ tailB)
          = some (kvs ++ post, rest) := by
  intro kvs
  induction kvs with
  | nil => intro hne; exact absurd rfl hne
  | cons kv kvs2 ih =>
    obtain ⟨k, vs⟩ := kv
    intro _ hpv tailB post rest fc hnt hc ac g hg
    obtain ⟨hkp, hkv⟩ := hpv (k, vs) (by simp)
    dsimp only at hkp hkv
    obtain ⟨cv, vs2, hvs, hcvws⟩ := valSpan_head hkv
    have hstream : renderFields true ((k, vs) :: kvs2) ++ tailB
        = '"' :: (k ++ '"' :: ':' :: (vs ++ (renderFields false kvs2 ++ tailB))) := by
      simp [renderFields, renderField]
    rw [hstream] at hg ⊢
    obtain ⟨g1, rfl⟩ : ∃ g1, g = g1 + 1 := ⟨g - 1, by omega⟩
    simp only [parseFF]
    rw [skipWS_not_ws _ _ _ rfl (by decide)]
    dsimp only
    rw [if_neg (by decide), if_pos rfl,
      scanStr_plain k (':' :: (vs ++ (renderFields false kvs2 ++ tailB))) hkp]
    dsimp only
    rw [skipWS_not_ws _ _ _ rfl (by decide)]
    dsimp only
    rw [if_pos rfl]
    have hns : NumSafe (renderFields false kvs2 ++ tailB) := by
      match kvs2 with
      | [] => simpa [renderFields] using hnt
      | (k2, v2) :: kvs3 =>
        intro c r hcr
        simp [renderFields] at hcr
        rw [← hcr.1]
        refine ⟨by decide, by decide, by decide, by decide⟩
    have hvsws : skipWS (vs ++ (renderFields false kvs2 ++ tailB))
        = vs ++ (renderFields false kvs2 ++ tailB) :=
      skipWS_not_ws _ cv (vs2 ++ (renderFields false kvs2 ++ tailB))
        (by rw [hvs]; simp) hcvws
    rw [hvsws,
      show scanValue (vs ++ (renderFields false kvs2 ++ tailB))
          = some (vs, renderFields false kvs2 ++ tailB) from
        hkv (renderFields false kvs2 ++ tailB) _ hns
          (by simp only [List.length_append]; omega)]
    dsimp only
    match kvs2 with
    | [] =>
      have htail : renderFields false ([] : List (List Char × List Char)) ++ tailB
          = tailB := by simp [renderFields]
      rw [htail] at hg ⊢
      rw [parseFF_norm fc .sep tailB (post, rest) hc g1
        (by simp only [List.length_cons, List.length_append] at hg; omega)]
      simp
    | (k2, v2) :: kvs3 =>
      have hrf : renderFields false ((k2, v2) :: kvs3) ++ tailB
          = ',' :: (renderFields true ((k2, v2) :: kvs3) ++ tailB) := by
        simp [renderFields]
      rw [hrf] at hg ⊢
      obtain ⟨g2, rfl⟩ : ∃ g2, g1 = g2 + 1 := ⟨g1 - 1, by
        simp only [List.length_cons, List.length_append] at hg; omega⟩
      simp only [parseFF]
      rw [skipWS_not_ws _ _ _ rfl (by decide)]
      dsimp only
      rw [if_pos rfl]
      rw [ih (by simp) (fun kv2 hkv2 => hpv kv2 (by simp [hkv2]))
        tailB post rest fc hnt hc false g2
        (by simp only [List.length_cons, List.length_append] at hg ⊢; omega)]
      simp

/-! ## Assembling `copyWithAttachments` correctness -/

/-- Replace the first occurrence of the target key's value. -/
def replaceFirst : List (List Char × List Char) → List Char →
    List (List Char × List Char)
  | [], _ => []
  | (k, v) :: rest, enc =>
    if k = attachmentsKey then (k, enc) :: rest
    else (k, v) :: replaceFirst rest enc

theorem replaceFirst_notarget : ∀ kvs enc,
    (∀ kv ∈ kvs, kv.1 ≠ attachmentsKey) → replaceFirst kvs enc = kvs := by
  intro kvs enc
  induction kvs with
  | nil => intro _; rfl
  | cons kv rest ih =>
    intro h
    obtain ⟨k, v⟩ := kv
    simp only [replaceFirst]
    rw [if_neg (h (k, v) (by simp)), ih (fun x hx => h x (by simp [hx]))]

theorem replaceFirst_decomp : ∀ pre v post enc,
    (∀ kv ∈ pre, kv.1 ≠ attachmentsKey) →
    replaceFirst (pre ++ (attachmentsKey, v) :: post) enc
      = pre ++ (attachmentsKey, enc) :: post := by
  intro pre v post enc
  induction pre with
  | nil => intro _; simp [replaceFirst]
  | cons kv pre2 ih =>
    intro h
    obtain ⟨k, w⟩ := kv
    simp only [List.cons_append, replaceFirst]
    rw [if_neg (h (k, w) (by simp))]
    exact congrArg (List.cons (k, w)) (ih (fun x hx => h x (by simp [hx])))

theorem exists_first_target : ∀ kvs : List (List Char × List Char),
    attachmentsKey ∈ kvs.map Prod.fst →
    ∃ pre v post, kvs = pre ++ (attachmentsKey, v) :: post ∧
      ∀ kv ∈ pre, kv.1 ≠ attachmentsKey := by
  intro kvs
  induction kvs with
  | nil => intro h; simp at h
  | cons kv rest ih =>
    intro h
    by_cases hk : kv.1 = attachmentsKey
    · exact ⟨[], kv.2, rest, by simp [← hk], by simp⟩
    · have h2 : attachmentsKey ∈ rest.map Prod.fst := by
        rcases List.mem_map.mp h with ⟨x, hx, hx2⟩
        rcases List.mem_cons.mp hx with hx3 | hx3
        · exact absurd (hx3 ▸ hx2) hk
        · exact List.mem_map.mpr ⟨x, hx3, hx2⟩
      obtain ⟨pre, v, post, heq, hpre⟩ := ih h2
      refine ⟨kv :: pre, v, post, by simp [heq], ?_⟩
      intro x hx
      rcases List.mem_cons.mp hx with hx2 | hx2
      · exact hx2 ▸ hk
      · exact hpre x hx2

/-- Splicing the replacement bytes into the rendered prefix produces the
rendering of the member list with the replacement as the target's value. -/
theorem renderFields_target_merge : ∀ pre (b : Bool) (enc2 X : List Char),
    renderFields b (pre ++ [(attachmentsKey, [])]) ++ enc2 ++ X
      = renderFields b (pre ++ [(attachmentsKey, enc2)]) ++ X := by
  intro pre
  induction pre with
  | nil => intro b enc2 X; simp [renderFields, renderField]
  | cons kv pre2 ih =>
    intro b enc2 X
    obtain ⟨k, v⟩ := kv
    simp only [List.cons_append, renderFields, List.append_assoc]
    have h2 : renderFields false (pre2 ++ [(attachmentsKey, [])]) ++ (enc2 ++ X)
        = renderFields false (pre2 ++ [(attachmentsKey, enc2)]) ++ X := by
      rw [← List.append_assoc]
      exact ih false enc2 X
    exact congrArg _ (congrArg _ h2)

theorem attachmentsKey_plain : ∀ c ∈ attachmentsKey, plainChar c = true := by
  decide

/-- At end of (whitespace-padded) input the loop returns what was written,
with no error. -/
theorem rwLoopF_eof (a : List Char) (g : Nat) (st : RwSt) (first : Bool)
    (rest acc : List Char) (h : skipWS rest = []) (hg : 0 < g) :
    rwLoopF a g st first rest acc = some ⟨acc, true⟩ := by
  obtain ⟨g1, rfl⟩ : ∃ g1, g = g1 + 1 := ⟨g - 1, by omega⟩
  simp only [rwLoopF]
  rw [h]

theorem parseTopObject_inv (inp : List Char) (kvs : List (List Char × List Char))
    (h : parseTopObject inp = some kvs) :
    ∃ r rest, skipWS inp = '{' :: r ∧
      parseFF (inp.length + 1) (.fields true) r = some (kvs, rest) ∧
      skipWS rest = [] := by
  simp only [parseTopObject] at h
  match hsw : skipWS inp with
  | [] => rw [hsw] at h; simp at h
  | c :: r =>
    try rw [hsw] at h
    dsimp only at h
    by_cases h1 : c = '{'
    · rw [if_pos h1] at h
      match hpf : parseFF (inp.length + 1) (.fields true) r with
      | none => rw [hpf] at h; simp at h
      | some (kvs2, rest) =>
        try rw [hpf] at h
        dsimp only at h
        by_cases h2 : skipWS rest = []
        · rw [if_pos h2] at h
          simp only [Option.some.injEq] at h
          subst h1 h
          exact ⟨r, rest, rfl, hpf, h2⟩
        · rw [if_neg h2] at h; simp at h
    · rw [if_neg h1] at h; simp at h

theorem parseTopObject_mk (stream : List Char) (kvs : List (List Char × List Char))
    (rest : List Char)
    (h : parseFF (('{' :: stream).length + 1) (.fields true) stream = some (kvs, rest))
    (hr : skipWS rest = []) :
    parseTopObject ('{' :: stream) = some kvs := by
  simp only [parseTopObject]
  rw [skipWS_not_ws _ _ _ rfl (by decide)]
  dsimp only
  rw [if_pos rfl, h]
  dsimp only
  rw [if_pos hr]

/-- End-to-end correctness of the rewriter on parsed objects with plainly
representable keys: the run succeeds, and the output parses back to the
input members with the first target member's value replaced (or unchanged
when the target key does not occur). -/
theorem copyWA_parse_correct (inp enc : List Char)
    (kvs : List (List Char × List Char))
    (hp : parseTopObject inp = some kvs)
    (hkeys : ∀ kv ∈ kvs, ∀ c ∈ kv.1, plainChar c = true)
    (henc : ValSpan enc) :
    (copyWA inp (enc ++ ['\n'])).ok = true ∧
    parseTopObject (copyWA inp (enc ++ ['\n'])).out
      = some (replaceFirst kvs enc) := by
  obtain ⟨r, rest, hsw, hpf, hrest⟩ := parseTopObject_inv inp kvs hp
  have hrlen : r.length < inp.length + 1 := by
    have := skipWS_cons_len hsw; omega
  have hvsp : ∀ kv ∈ kvs, ValSpan kv.2 := parseFF_valspans _ _ _ _ _ hpf
  simp only [copyWA]
  rw [hsw]
  dsimp only
  rw [if_pos rfl]
  by_cases htgt : attachmentsKey ∈ kvs.map Prod.fst
  · obtain ⟨pre, v, post, hkvs, hpre⟩ := exists_first_target kvs htgt
    obtain ⟨tail, fc, hc, ⟨w, hwl⟩, heq⟩ :=
      (rwLoop_target (inp.length+1) (enc ++ ['\n'])).1 r kvs rest hpf
        pre v post hkvs hpre true ['{'] (inp.length+1) hrlen
    rw [heq]
    simp only [Option.getD_some]
    refine ⟨trivial, ?_⟩
    have hout : ['{'] ++ renderFields true (pre ++ [(attachmentsKey, [])])
          ++ (enc ++ ['\n']) ++ tail
        = '{' :: (renderFields true (pre ++ [(attachmentsKey, enc)])
          ++ ('\n' :: tail)) := by
      have hm := renderFields_target_merge pre true enc ('\n' :: tail)
      simp only [List.append_assoc, List.cons_append, List.singleton_append,
        List.nil_append] at hm ⊢
      rw [hm]
    rw [hout]
    have hfcpos : fc ≠ 0 := by
      intro h0; subst h0; simp [parseFF] at hc
    obtain ⟨fc1, rfl⟩ : ∃ fc1, fc = fc1 + 1 := ⟨fc - 1, by omega⟩
    have hc2 : parseFF (fc1+1) .sep ('\n' :: tail) = some (post, rest) := by
      rw [show ('\n' :: tail) = ['\n'] ++ tail from rfl,
        parseFF_sep_ws ['\n'] tail fc1 (by decide)]
      exact hc
    have hre := renderFields_reparse (pre ++ [(attachmentsKey, enc)])
      (by simp)
      (by
        intro kv hkv
        rcases List.mem_append.mp hkv with hkv2 | hkv2
        · have hmem : kv ∈ kvs := by rw [hkvs]; simp [hkv2]
          exact ⟨hkeys kv hmem, hvsp kv hmem⟩
        · simp at hkv2
          subst hkv2
          exact ⟨attachmentsKey_plain, henc⟩)
      ('\n' :: tail) post rest (fc1+1)
      (by intro c r0 hcr; cases hcr; refine ⟨by decide, by decide, by decide, by decide⟩)
      hc2 true
      (('{' :: (renderFields true (pre ++ [(attachmentsKey, enc)])
        ++ ('\n' :: tail))).length + 1)
      (by simp only [List.length_cons, List.length_append]; omega)
    rw [parseTopObject_mk _ _ rest (by rw [hre]) hrest]
    rw [hkvs, replaceFirst_decomp pre v post enc hpre]
    simp
  · have hnt : ∀ kv ∈ kvs, kv.1 ≠ attachmentsKey :=
      fun kv hkv heq => htgt (List.mem_map.mpr ⟨kv, hkv, heq⟩)
    obtain ⟨g2, hg2, heq⟩ :=
      (rwLoop_notarget (inp.length+1) (enc ++ ['\n'])).1 r kvs rest hpf hnt
        true ['{'] (inp.length+1) hrlen
    rw [heq, rwLoopF_eof _ _ _ _ _ _ hrest (by omega)]
    simp only [Option.getD_some]
    refine ⟨trivial, ?_⟩
    rw [replaceFirst_notarget kvs enc hnt]
    match kvs, hnt with
    | [], _ =>
      rw [show ['{'] ++ renderFields true [] ++ ['}'] = ['{', '}'] by
        simp [renderFields]]
      rfl
    | kv0 :: kvs2, hnt =>
      rw [show ['{'] ++ renderFields true (kv0 :: kvs2) ++ ['}']
          = '{' :: (renderFields true (kv0 :: kvs2) ++ ['}']) by simp]
      have hre := renderFields_reparse (kv0 :: kvs2) (by simp)
        (fun kv hkv => ⟨hkeys kv hkv, hvsp kv hkv⟩)
        ['}'] [] [] 1
        (by intro c r0 hcr; cases hcr; refine ⟨by decide, by decide, by decide, by decide⟩)
        rfl true
        (('{' :: (renderFields true (kv0 :: kvs2) ++ ['}'])).length + 1)
        (by simp only [List.length_cons, List.length_append]; omega)
      rw [parseTopObject_mk _ _ [] (by rw [hre]) rfl]
      simp

/-! ## The multipart assembler (db.go 237–278, `mime/multipart` writer)

`createMultipart` writes the document part (headers then the rewritten
document), then one part per attachment, closing each attachment's content
stream only after its bytes are copied, and finally the closing boundary
marker.  `mime/multipart.Writer.CreatePart` frames a part as
`--boundary CRLF` (with a leading CRLF for every part but the first),
the MIME headers in sorted key order, and a blank line;
`Writer.Close` writes `CRLF --boundary-- CRLF`.  An attachment source
carries its declared metadata, the bytes its content stream yields, and
whether the stream then ends cleanly (`ok`) or fails. -/

def crlf : List Char := ['\r', '\n']

def dashdash : List Char := ['-', '-']

def mimeHeaderLine (k v : List Char) : List Char := k ++ ':' :: ' ' :: (v ++ crlf)

/-- Go renders the disposition filename with `%q`; for filenames free of
characters needing numeric escapes this quotes and escapes `"` and `\\`. -/
def qChar (c : Char) : List Char :=
  if c = '"' then ['\\', '"'] else if c = '\\' then ['\\', '\\'] else [c]

def quoteFilename (n : List Char) : List Char :=
  '"' :: (n.foldr (fun c acc => qChar c ++ acc) [] ++ ['"'])

def mpPartOpen (b : List Char) (firstPart : Bool) : List Char :=
  (if firstPart then [] else crlf) ++ dashdash ++ b ++ crlf

def mpCloseMarker (b : List Char) : List Char :=
  crlf ++ dashdash ++ b ++ dashdash ++ crlf

structure AttSrc where
  filename : List Char
  contentType : List Char
  data : List Char
  ok : Bool
  deriving DecidableEq, Repr

def mpAttHeaders (a : AttSrc) : List Char :=
  mimeHeaderLine ("Content-Disposition".data)
    ("attachment; filename=".data ++ quoteFilename a.filename)
  ++ mimeHeaderLine ("Content-Type".data) a.contentType ++ crlf

structure MpRun where
  body : List Char
  ok : Bool
  closed : List Bool
  started : Nat
  deriving DecidableEq, Repr

/-- The attachment loop of `createMultipart`: for each attachment, start a
part and copy its content; on a read failure return the error at once (no
close of the failing or any later stream); otherwise close the stream and
continue; after the last attachment write the closing marker. -/
def cmAtts (b : List Char) : List AttSrc → MpRun
  | [] => ⟨mpCloseMarker b, true, [], 0⟩
  | a :: rest =>
    if a.ok then
      let r := cmAtts b rest
      ⟨mpPartOpen b false ++ mpAttHeaders a ++ a.data ++ r.body,
        r.ok, true :: r.closed, r.started + 1⟩
    else
      ⟨mpPartOpen b false ++ mpAttHeaders a ++ a.data,
        false, false :: rest.map (fun _ => false), 1⟩

/-- `createMultipart`: document part (Content-Type: application/json, then
the rewritten document bytes), then the attachment parts. -/
def createMultipartRun (b doc : List Char) (atts : List AttSrc) : MpRun :=
  let r := cmAtts b atts
  ⟨mpPartOpen b true ++ mimeHeaderLine ("Content-Type".data) ("application/json".data)
    ++ crlf ++ doc ++ r.body, r.ok, r.closed, r.started⟩

structure MpaRun where
  body : List Char
  ok : Bool
  docClosed : Bool
  closed : List Bool
  started : Nat
  deriving DecidableEq, Repr

/-- `multipartAttachments`: runs `createMultipart` in a producer task and
closes the original document stream afterwards in every case. -/
def multipartAttachmentsRun (b doc : List Char) (atts : List AttSrc) : MpaRun :=
  let r := createMultipartRun b doc atts
  ⟨r.body, r.ok, true, r.closed, r.started⟩

/-- A body consisting of the given parts separated by the boundary and
terminated by the closing marker (the spec's framing of a multipart body). -/
def mpSep (b : List Char) : List (List Char) → List Char
  | [] => mpCloseMarker b
  | p :: ps => crlf ++ dashdash ++ b ++ crlf ++ p ++ mpSep b ps

def mpAssembled (b : List Char) : List (List Char) → List Char
  | [] => dashdash ++ b ++ crlf ++ mpCloseMarker b
  | p :: ps => dashdash ++ b ++ crlf ++ p ++ mpSep b ps

def mpDocPart (doc : List Char) : List Char :=
  mimeHeaderLine ("Content-Type".data) ("application/json".data) ++ crlf ++ doc

def mpAttPart (a : AttSrc) : List Char := mpAttHeaders a ++ a.data

/-! ## Attachment extraction (db.go 198–233) -/

structure Attachment where
  contentType : List Char
  content : List Char
  deriving DecidableEq, Repr

/-- The dynamic type of a document's attachments-tagged field:
a `kivik.Attachments` collection, a pointer to one (possibly nil),
or any other type. -/
inductive DocField
  | atts (m : List (List Char × Attachment))
  | attsPtr (m : Option (List (List Char × Attachment)))
  | other
  deriving DecidableEq, Repr

def lookupField : List (List Char × DocField) → List Char → Option DocField
  | [], _ => none
  | (k, v) :: rest, key => if k = key then some v else lookupField rest key

def setField : List (List Char × DocField) → List Char → DocField →
    List (List Char × DocField)
  | [], _, _ => []
  | (k, v) :: rest, key, nv =>
    if k = key then (k, nv) :: rest else (k, v) :: setField rest key nv

/-- `interfaceToAttachments`: a collection value is moved out (the source
collection is emptied, a pointer target set to nil) and reported found,
regardless of whether it has entries; any other type reports not found. -/
def interfaceToAttachments : DocField →
    Option (List (List Char × Attachment) × DocField)
  | .atts m => some (m, .atts [])
  | .attsPtr (some m) => some (m, .attsPtr none)
  | .attsPtr none => some ([], .attsPtr none)
  | .other => none

/-- `extractAttachments` on the document's field map: looks up the
attachments field and delegates; `none` models `(nil, false)`. -/
def extractAttachments (doc : List (List Char × DocField)) :
    Option (List (List Char × Attachment) × List (List Char × DocField)) :=
  match lookupField doc attachmentsKey with
  | none => none
  | some fv =>
    match interfaceToAttachments fv with
    | none => none
    | some (atts, fv2) => some (atts, setField doc attachmentsKey fv2)

/-! ## Attachment stubs (db.go 295–307) -/

structure AttStub where
  contentType : List Char
  follows : Bool
  deriving DecidableEq, Repr

def alookup {α : Type} : List (List Char × α) → List Char → Option α
  | [], _ => none
  | (k, v) :: rest, key => if k = key then some v else alookup rest key

def attachmentStubs :
    Option (List (List Char × Attachment)) → Option (List (List Char × AttStub))
  | none => none
  | some atts => some (atts.map fun na => (na.1, ⟨na.2.contentType, true⟩))

/-! ## db.Put response handling (db.go 169–194) -/

inductive KErr
  | missingArg
  | network
  | badResponse
  deriving DecidableEq, Repr

/-- `db.Put` after the HTTP layer: an empty docID is rejected up front; a
transport or response error propagates; otherwise the server's result is
checked: a result ID differing from the requested docID yields the
server-reported revision together with a bad-response error, and only a
matching ID yields the revision with no error. -/
def dbPut (docID : List Char) (resp : Option (List Char × List Char)) :
    List Char × Option KErr :=
  if docID = [] then ([], some .missingArg)
  else
    match resp with
    | none => ([], some .network)
    | some (rid, rrev) =>
      if rid ≠ docID then (rrev, some .badResponse)
      else (rrev, none)

/-! ## The upload encoder's document part (spec §4, §6)

Modelled from the spec: `encodeUpload(document, attachments)` has no caller
in the sources; per the spec, when the extractor finds no attachments the
document's normal serialization is sent unchanged, and when attachments are
present the document part is the rewriter's output on the serialization. -/
def encodeUploadDocPart (docBytes : List Char) : Option (List Char) → List Char
  | none => docBytes
  | some a => (copyWA docBytes a).out

/-- The attachment loop on all-good sources emits exactly the attachment
parts joined by the boundary separator and the closing marker, closing
every stream. -/
theorem cmAtts_allok : ∀ (b : List Char) (atts : List AttSrc),
    (∀ a ∈ atts, a.ok = true) →
    cmAtts b atts = ⟨mpSep b (atts.map mpAttPart), true,
      atts.map (fun _ => true), atts.length⟩ := by
  intro b atts
  induction atts with
  | nil => intro _; rfl
  | cons a rest ih =>
    intro h
    simp only [cmAtts, h a (by simp), if_true, ih (fun x hx => h x (by simp [hx]))]
    simp [mpSep, mpAttPart, mpPartOpen, List.append_assoc]

/-- On a failing attachment, the loop stops inside that attachment's part:
parts before it are complete with their streams closed, but the failing
attachment's stream and every later stream are left unclosed. -/
theorem cmAtts_fail : ∀ (b : List Char) (pre : List AttSrc) (a : AttSrc)
    (post : List AttSrc), (∀ x ∈ pre, x.ok = true) → a.ok = false →
    ∃ body1, cmAtts b (pre ++ a :: post)
      = ⟨body1, false, (pre.map fun _ => true) ++ false :: (post.map fun _ => false),
          pre.length + 1⟩ := by
  intro b pre
  induction pre with
  | nil =>
    intro a post _ ha
    refine ⟨mpPartOpen b false ++ mpAttHeaders a ++ a.data, ?_⟩
    simp [cmAtts, ha]
  | cons x pre2 ih =>
    intro a post hpre ha
    obtain ⟨body1, hb⟩ := ih a post (fun y hy => hpre y (by simp [hy])) ha
    refine ⟨mpPartOpen b false ++ mpAttHeaders x ++ x.data ++ body1, ?_⟩
    simp only [List.cons_append, cmAtts, hpre x (by simp), if_true]
    simp only [List.append_eq]
    rw [hb]
    simp

/-- C2: for a document stream and N attachment sources that all read
cleanly, `createMultipart` succeeds and its body is exactly N+1 parts
separated by the declared boundary and terminated by the closing boundary
marker: the first part carries the header `Content-Type: application/json`
and the document bytes, and each following part carries that attachment's
declared `Content-Type` and a `Content-Disposition: attachment;
filename="<name>"` header followed by its content bytes. -/
theorem C2_multipart_framing (b doc : List Char) (atts : List AttSrc)
    (h : ∀ a ∈ atts, a.ok = true) :
    (createMultipartRun b doc atts).ok = true ∧
    (createMultipartRun b doc atts).body
      = mpAssembled b (mpDocPart doc :: atts.map mpAttPart) ∧
    (mpDocPart doc :: atts.map mpAttPart).length = atts.length + 1 := by
  have hrun := cmAtts_allok b atts h
  refine ⟨?_, ?_, by simp⟩
  · simp [createMultipartRun, hrun]
  · simp only [createMultipartRun, hrun]
    simp [mpAssembled, mpDocPart, mpPartOpen, List.append_assoc]

/-- C2 witness. -/
theorem C2_multipart_framing_witness :
    (∀ a ∈ [AttSrc.mk ['f'] ['t'] ['X'] true, AttSrc.mk ['g'] ['u'] ['Y'] true],
      a.ok = true) ∧
    ((createMultipartRun ['B'] ['D']
        [AttSrc.mk ['f'] ['t'] ['X'] true, AttSrc.mk ['g'] ['u'] ['Y'] true]).ok = true ∧
      (createMultipartRun ['B'] ['D']
        [AttSrc.mk ['f'] ['t'] ['X'] true, AttSrc.mk ['g'] ['u'] ['Y'] true]).body
        = mpAssembled ['B'] (mpDocPart ['D'] ::
            [AttSrc.mk ['f'] ['t'] ['X'] true, AttSrc.mk ['g'] ['u'] ['Y'] true].map mpAttPart) ∧
      (mpDocPart ['D'] ::
        [AttSrc.mk ['f'] ['t'] ['X'] true, AttSrc.mk ['g'] ['u'] ['Y'] true].map mpAttPart).length
        = [AttSrc.mk ['f'] ['t'] ['X'] true, AttSrc.mk ['g'] ['u'] ['Y'] true].length + 1) :=
  ⟨by decide, C2_multipart_framing ['B'] ['D'] _ (by decide)⟩

/-- C3 (corrected): when reading attachment `a`'s content fails after the
attachments in `pre` have been written, assembly aborts without starting
any later part and the original document stream is closed before the
failure is surfaced — but, contrary to the claim, neither the failing
attachment's stream nor any not-yet-written attachment's stream is closed:
only the already-completed attachments were closed. -/
theorem C3_error_path_closure (b doc : List Char) (pre : List AttSrc)
    (a : AttSrc) (post : List AttSrc)
    (hpre : ∀ x ∈ pre, x.ok = true) (ha : a.ok = false) :
    (multipartAttachmentsRun b doc (pre ++ a :: post)).ok = false ∧
    (multipartAttachmentsRun b doc (pre ++ a :: post)).started = pre.length + 1 ∧
    (multipartAttachmentsRun b doc (pre ++ a :: post)).docClosed = true ∧
    (multipartAttachmentsRun b doc (pre ++ a :: post)).closed
      = (pre.map fun _ => true) ++ false :: (post.map fun _ => false) := by
  obtain ⟨body1, hb⟩ := cmAtts_fail b pre a post hpre ha
  simp [multipartAttachmentsRun, createMultipartRun, hb]

/-- C3 witness. -/
theorem C3_error_path_closure_witness :
    (∀ x ∈ [AttSrc.mk ['f'] ['t'] ['X'] true], x.ok = true) ∧
    (AttSrc.mk ['g'] ['u'] ['Y'] false).ok = false ∧
    ((multipartAttachmentsRun ['B'] ['D']
        ([AttSrc.mk ['f'] ['t'] ['X'] true] ++ AttSrc.mk ['g'] ['u'] ['Y'] false
          :: [AttSrc.mk ['h'] ['v'] ['Z'] true])).ok = false ∧
      (multipartAttachmentsRun ['B'] ['D']
        ([AttSrc.mk ['f'] ['t'] ['X'] true] ++ AttSrc.mk ['g'] ['u'] ['Y'] false
          :: [AttSrc.mk ['h'] ['v'] ['Z'] true])).started
        = [AttSrc.mk ['f'] ['t'] ['X'] true].length + 1 ∧
      (multipartAttachmentsRun ['B'] ['D']
        ([AttSrc.mk ['f'] ['t'] ['X'] true] ++ AttSrc.mk ['g'] ['u'] ['Y'] false
          :: [AttSrc.mk ['h'] ['v'] ['Z'] true])).docClosed = true ∧
      (multipartAttachmentsRun ['B'] ['D']
        ([AttSrc.mk ['f'] ['t'] ['X'] true] ++ AttSrc.mk ['g'] ['u'] ['Y'] false
          :: [AttSrc.mk ['h'] ['v'] ['Z'] true])).closed
        = ([AttSrc.mk ['f'] ['t'] ['X'] true].map fun _ => true)
          ++ false :: ([AttSrc.mk ['h'] ['v'] ['Z'] true].map fun _ => false)) :=
  ⟨by decide, rfl,
    C3_error_path_closure ['B'] ['D'] _ _ _ (by decide) rfl⟩

/-- C3 counterexample to the claim as stated: with a failing first
attachment followed by a not-yet-written one, the failing stream and the
pending stream both remain unclosed when the failure is surfaced, so it is
not the case that every still-open stream is closed. -/
theorem C3_error_path_closure_cex :
    (multipartAttachmentsRun ['B'] ['D']
      [AttSrc.mk ['g'] ['u'] ['Y'] false, AttSrc.mk ['h'] ['v'] ['Z'] true]).ok
      = false ∧
    (multipartAttachmentsRun ['B'] ['D']
      [AttSrc.mk ['g'] ['u'] ['Y'] false, AttSrc.mk ['h'] ['v'] ['Z'] true]).closed
      = [false, false] := by
  refine ⟨rfl, rfl⟩

/-- C6 (corrected): `extractAttachments` reports not-found (and no document
change) when the attachments field is absent or has an unrecognized type;
when a collection-typed field is present its entries are moved out — the
source field is left an empty collection (or nil pointer target) and the
returned set holds exactly the moved entries.  Contrary to the claim, a
present-but-empty collection is reported found (with an empty set), not
treated as absent. -/
theorem C6_extract_attachments :
    (∀ doc, lookupField doc attachmentsKey = none →
      extractAttachments doc = none) ∧
    (∀ doc, lookupField doc attachmentsKey = some .other →
      extractAttachments doc = none) ∧
    (∀ doc m, lookupField doc attachmentsKey = some (.atts m) →
      extractAttachments doc = some (m, setField doc attachmentsKey (.atts []))) ∧
    (∀ doc m, lookupField doc attachmentsKey = some (.attsPtr (some m)) →
      extractAttachments doc
        = some (m, setField doc attachmentsKey (.attsPtr none))) ∧
    (∀ doc, lookupField doc attachmentsKey = some (.attsPtr none) →
      extractAttachments doc
        = some ([], setField doc attachmentsKey (.attsPtr none))) := by
  refine ⟨?_, ?_, ?_, ?_, ?_⟩
  · intro doc h; simp [extractAttachments, h]
  · intro doc h; simp [extractAttachments, h, interfaceToAttachments]
  · intro doc m h; simp [extractAttachments, h, interfaceToAttachments]
  · intro doc m h; simp [extractAttachments, h, interfaceToAttachments]
  · intro doc h; simp [extractAttachments, h, interfaceToAttachments]

/-- C6 witness. -/
theorem C6_extract_attachments_witness :
    (lookupField [(['x'], DocField.other)] attachmentsKey = none ∧
      extractAttachments [(['x'], DocField.other)] = none) ∧
    (lookupField [(attachmentsKey, DocField.other)] attachmentsKey
        = some DocField.other ∧
      extractAttachments [(attachmentsKey, DocField.other)] = none) ∧
    (lookupField [(attachmentsKey,
        DocField.atts [(['a'], Attachment.mk ['t'] ['X'])])] attachmentsKey
        = some (DocField.atts [(['a'], Attachment.mk ['t'] ['X'])]) ∧
      extractAttachments [(attachmentsKey,
        DocField.atts [(['a'], Attachment.mk ['t'] ['X'])])]
        = some ([(['a'], Attachment.mk ['t'] ['X'])],
            setField [(attachmentsKey,
              DocField.atts [(['a'], Attachment.mk ['t'] ['X'])])]
              attachmentsKey (DocField.atts []))) :=
  ⟨⟨rfl, C6_extract_attachments.1 _ rfl⟩,
    ⟨rfl, C6_extract_attachments.2.1 _ rfl⟩,
    ⟨rfl, C6_extract_attachments.2.2.1 _ _ rfl⟩⟩

/-- C6 counterexample to the claim as stated: a present-but-empty
attachments collection is reported found (the extractor does not return
found = false for an empty attachments field). -/
theorem C6_extract_attachments_cex :
    extractAttachments [(attachmentsKey, DocField.atts [])]
      = some ([], [(attachmentsKey, DocField.atts [])]) := by
  rfl

/-- C8: the stub replacement maps every attachment name to a stub carrying
that attachment's declared content type and `follows = true`, so looking up
any attachment's metadata entry in the replacement yields its content type
and `follows = true`. -/
theorem C8_stub_metadata (atts : List (List Char × Attachment))
    (name : List Char) (att : Attachment)
    (h : alookup atts name = some att) :
    ∃ stubs, attachmentStubs (some atts) = some stubs ∧
      alookup stubs name = some ⟨att.contentType, true⟩ := by
  simp only [attachmentStubs]
  refine ⟨_, rfl, ?_⟩
  induction atts with
  | nil => simp [alookup] at h
  | cons na rest ih =>
    obtain ⟨k, v⟩ := na
    simp only [alookup, List.map_cons] at h ⊢
    by_cases hk : k = name
    · rw [if_pos hk] at h ⊢
      simp only [Option.some.injEq] at h
      rw [h]
    · rw [if_neg hk] at h ⊢
      exact ih h

/-- C8 witness. -/
theorem C8_stub_metadata_witness :
    alookup [(['a'], Attachment.mk ['t', 'p'] ['X']),
        (['b'], Attachment.mk ['t', 'q'] ['Y'])] ['b']
      = some (Attachment.mk ['t', 'q'] ['Y']) ∧
    (∃ stubs,
      attachmentStubs (some [(['a'], Attachment.mk ['t', 'p'] ['X']),
        (['b'], Attachment.mk ['t', 'q'] ['Y'])]) = some stubs ∧
      alookup stubs ['b'] = some ⟨(Attachment.mk ['t', 'q'] ['Y']).contentType, true⟩) :=
  ⟨rfl, C8_stub_metadata _ ['b'] _ rfl⟩

/-- C10: for a successful HTTP response to Put (docID nonempty), a result
ID differing from the requested docID yields the server-reported revision
together with a bad-response error; the revision is returned with no error
exactly when the result ID matches the requested docID. -/
theorem C10_put_id_check (docID rid rrev : List Char) (hne : docID ≠ []) :
    (rid ≠ docID → dbPut docID (some (rid, rrev)) = (rrev, some .badResponse)) ∧
    (rid = docID → dbPut docID (some (rid, rrev)) = (rrev, none)) ∧
    ((dbPut docID (some (rid, rrev))).2 = none ↔ rid = docID) := by
  simp only [dbPut, if_neg hne]
  by_cases h : rid = docID
  · rw [if_neg (by simp [h])]
    refine ⟨fun hc => absurd h hc, fun _ => rfl, by simp [h]⟩
  · rw [if_pos h]
    refine ⟨fun _ => rfl, fun hc => absurd hc h, by simp [h]⟩

/-- C10 witness. -/
theorem C10_put_id_check_witness :
    (['d'] : List Char) ≠ [] ∧
    (['x'] ≠ ['d'] → dbPut ['d'] (some (['x'], ['r'])) = (['r'], some .badResponse)) ∧
    (dbPut ['d'] (some (['d'], ['r'])) = (['r'], none)) := by
  refine ⟨by decide, (C10_put_id_check ['d'] ['x'] ['r'] (by decide)).1, ?_⟩
  exact (C10_put_id_check ['d'] ['d'] ['r'] (by decide)).2.1 rfl

def c1CexInp : List Char := ['{', '"', 'a', '\\', '"', 'b', '"', ':', '1', '}']

def nullSpan : List Char := ['n', 'u', 'l', 'l']

def c1WitInp : List Char :=
  ['{', '"', 'a', '"', ':', '1', ',', '"', '_', 'a', 't', 't', 'a', 'c', 'h',
   'm', 'e', 'n', 't', 's', '"', ':', '0', ',', '"', 'b', '"', ':', '2', '}']

def c1WitKvs : List (List Char × List Char) :=
  [(['a'], ['1']), (attachmentsKey, ['0']), (['b'], ['2'])]

def c5WitInp : List Char :=
  ['{', '"', '_', 'a', 't', 't', 'a', 'c', 'h', 'm', 'e', 'n', 't', 's', '"',
   ':', '0', '}', ' ']

def c5WitKvs : List (List Char × List Char) := [(attachmentsKey, ['0'])]

/-- C1 (corrected): for every byte stream that parses as a JSON object
whose decoded keys contain only characters that need no JSON string
escaping, the rewriter run with replacement bytes `enc` (a value span)
succeeds, and its output parses to the input object with the first
occurrence of the target key's value replaced by `enc` — and equal to the
input object when the target key does not occur — with key order
preserved.  The claim's unrestricted form is false: a key containing a
character that must be escaped is re-emitted raw by
`fmt.Fprintf("\"%s\":")`, yielding unparsable output
(`C1_rewrite_parse_cex`). -/
theorem C1_rewrite_parse_correct (inp enc : List Char)
    (kvs : List (List Char × List Char))
    (hp : parseTopObject inp = some kvs)
    (hkeys : ∀ kv ∈ kvs, ∀ c ∈ kv.1, plainChar c = true)
    (henc : ValSpan enc) :
    (copyWA inp (enc ++ ['\n'])).ok = true ∧
    parseTopObject (copyWA inp (enc ++ ['\n'])).out
      = some (replaceFirst kvs enc) :=
  copyWA_parse_correct inp enc kvs hp hkeys henc

/-- C1 counterexample to the claim as stated: the input parses as a JSON
object (with key `a"b`), the rewriter succeeds, but its output does not
parse as JSON at all. -/
theorem C1_rewrite_parse_cex :
    parseTopObject c1CexInp = some [(['a', '"', 'b'], ['1'])] ∧
    (copyWA c1CexInp (nullSpan ++ ['\n'])).ok = true ∧
    parseTopObject (copyWA c1CexInp (nullSpan ++ ['\n'])).out = none := by
  refine ⟨by decide, rfl, by decide⟩

/-- C1 witness. -/
theorem C1_rewrite_parse_correct_witness :
    parseTopObject c1WitInp = some c1WitKvs ∧
    (∀ kv ∈ c1WitKvs, ∀ c ∈ kv.1, plainChar c = true) ∧
    ValSpan nullSpan ∧
    ((copyWA c1WitInp (nullSpan ++ ['\n'])).ok = true ∧
      parseTopObject (copyWA c1WitInp (nullSpan ++ ['\n'])).out
        = some (replaceFirst c1WitKvs nullSpan)) := by
  have henc : ValSpan nullSpan :=
    scanValue_valSpan (show scanValue nullSpan = some (nullSpan, []) from rfl)
  exact ⟨by decide, by decide, henc,
    C1_rewrite_parse_correct c1WitInp nullSpan c1WitKvs (by decide) (by decide) henc⟩

/-- C4 (corrected): an input whose first structural token exists and is
not an object-open brace fails with nothing written; an input that is
empty (or all whitespace) does not fail: the function prints the nil token
as the text `<nil>` and returns success (refuting the claim's "including
an empty input" direction, `C4_malformed_first_token_cex`); and every
input that parses as a single JSON object followed by only whitespace
succeeds — so a malformed-input failure occurs only on inputs that are
not such objects. -/
theorem C4_malformed_first_token (inp a : List Char) :
    (skipWS inp = [] → copyWA inp a = ⟨['<', 'n', 'i', 'l', '>'], true⟩) ∧
    (∀ c r, skipWS inp = c :: r → c ≠ '{' → copyWA inp a = ⟨[], false⟩) ∧
    (∀ kvs, parseTopObject inp = some kvs → (copyWA inp a).ok = true) := by
  refine ⟨?_, ?_, ?_⟩
  · intro h
    simp only [copyWA]
    rw [h]
  · intro c r h hc
    simp only [copyWA]
    rw [h]
    dsimp only
    rw [if_neg hc]
  · intro kvs hp
    obtain ⟨r, rest, hsw, hpf, hrest⟩ := parseTopObject_inv inp kvs hp
    have hrlen : r.length < inp.length + 1 := by
      have := skipWS_cons_len hsw; omega
    simp only [copyWA]
    rw [hsw]
    dsimp only
    rw [if_pos rfl]
    by_cases htgt : attachmentsKey ∈ kvs.map Prod.fst
    · obtain ⟨pre, v, post, hkvs, hpre⟩ := exists_first_target kvs htgt
      obtain ⟨tail, fc, hc, -, heq⟩ :=
        (rwLoop_target (inp.length + 1) a).1 r kvs rest hpf pre v post hkvs
          hpre true ['{'] (inp.length + 1) hrlen
      rw [heq]
      rfl
    · have hnt : ∀ kv ∈ kvs, kv.1 ≠ attachmentsKey :=
        fun kv hkv heq2 => htgt (List.mem_map.mpr ⟨kv, hkv, heq2⟩)
      obtain ⟨g2, hg2, heq⟩ :=
        (rwLoop_notarget (inp.length + 1) a).1 r kvs rest hpf hnt
          true ['{'] (inp.length + 1) hrlen
      rw [heq, rwLoopF_eof _ _ _ _ _ _ hrest (by omega)]
      rfl

/-- C4 counterexample to the claim as stated: the empty input does not
produce a malformed-input error — the rewriter returns success, with the
literal text `<nil>` as output. -/
theorem C4_malformed_first_token_cex :
    copyWA [] ['E'] = ⟨['<', 'n', 'i', 'l', '>'], true⟩ ∧
    (copyWA [] ['E']).ok = true := ⟨rfl, rfl⟩

/-- C4 witness. -/
theorem C4_malformed_first_token_witness :
    copyWA [' '] ['E'] = ⟨['<', 'n', 'i', 'l', '>'], true⟩ ∧
    copyWA ['['] ['E'] = ⟨[], false⟩ ∧
    (copyWA ['{', '}'] ['E']).ok = true :=
  ⟨(C4_malformed_first_token [' '] ['E']).1 rfl,
    (C4_malformed_first_token ['['] ['E']).2.1 '[' [] rfl (by decide),
    (C4_malformed_first_token ['{', '}'] ['E']).2.2 [] (by decide)⟩

/-- C5: on an input that parses as a JSON object whose member list splits
as `pre ++ (target, v) :: post` with the target key first occurring there,
the rewriter succeeds and its whole output is exactly the re-emitted
members before the target, the target key, the replacement bytes, and then
a byte sequence `tail` that is literally a suffix of the input — and
`tail` is the true remainder after the target member's value: from
separator mode it parses to exactly the post-target members `post` and the
input's trailing whitespace.  Every remaining input byte after the
replaced value, including the object-close brace and anything beyond it,
thus appears in the output verbatim. -/
theorem C5_passthrough_after_target (inp a : List Char)
    (kvs pre : List (List Char × List Char)) (v : List Char)
    (post : List (List Char × List Char))
    (hp : parseTopObject inp = some kvs)
    (hkvs : kvs = pre ++ (attachmentsKey, v) :: post)
    (hpre : ∀ kv ∈ pre, kv.1 ≠ attachmentsKey) :
    ∃ w tail rest fc,
      inp = w ++ tail ∧
      parseFF fc .sep tail = some (post, rest) ∧
      skipWS rest = [] ∧
      copyWA inp a
        = ⟨'{' :: (renderFields true (pre ++ [(attachmentsKey, [])])
            ++ a ++ tail), true⟩ := by
  obtain ⟨r, rest, hsw, hpf, hrest⟩ := parseTopObject_inv inp kvs hp
  obtain ⟨tail, fc, hc, ⟨w2, hw2⟩, heq⟩ :=
    (rwLoop_target (inp.length + 1) a).1 r kvs rest hpf pre v post hkvs hpre
      true ['{'] (inp.length + 1) (by have := skipWS_cons_len hsw; omega)
  obtain ⟨w0, hw0, -⟩ := skipWS_decomp inp
  refine ⟨w0 ++ '{' :: w2, tail, rest, fc, ?_, hc, hrest, ?_⟩
  · conv_lhs => rw [hw0, hsw, hw2]
    simp
  · simp only [copyWA]
    rw [hsw]
    dsimp only
    rw [if_pos rfl, heq]
    simp

/-- C5 witness. -/
theorem C5_passthrough_after_target_witness :
    parseTopObject c5WitInp = some c5WitKvs ∧
    c5WitKvs = [] ++ (attachmentsKey, ['0']) :: [] ∧
    (∀ kv ∈ ([] : List (List Char × List Char)), kv.1 ≠ attachmentsKey) ∧
    (∃ w tail rest fc,
      c5WitInp = w ++ tail ∧
      parseFF fc .sep tail = some ([], rest) ∧
      skipWS rest = [] ∧
      copyWA c5WitInp ['E']
        = ⟨'{' :: (renderFields true ([] ++ [(attachmentsKey, [])])
            ++ ['E'] ++ tail), true⟩) :=
  ⟨by decide, rfl, by simp,
    C5_passthrough_after_target c5WitInp ['E'] c5WitKvs [] ['0'] []
      (by decide) rfl (by simp)⟩

/-- C7: for a document whose serialization is a JSON object with no
attachments field (given in the serializer's canonical compact form), the
upload encoder's document part is byte-identical to that serialization,
whether the no-attachment path sends it directly or the rewriter processes
it — no attachments stub section is introduced. -/
theorem C7_no_attachments_doc_part (kvs : List (List Char × List Char))
    (ao : Option (List Char))
    (hp : parseTopObject ('{' :: (renderFields true kvs ++ ['}'])) = some kvs)
    (hnt : ∀ kv ∈ kvs, kv.1 ≠ attachmentsKey) :
    encodeUploadDocPart ('{' :: (renderFields true kvs ++ ['}'])) ao
      = '{' :: (renderFields true kvs ++ ['}']) := by
  match ao with
  | none => rfl
  | some a =>
    simp only [encodeUploadDocPart]
    obtain ⟨r, rest, hsw, hpf, hrest⟩ := parseTopObject_inv _ kvs hp
    have hsw2 : skipWS ('{' :: (renderFields true kvs ++ ['}']))
        = '{' :: (renderFields true kvs ++ ['}']) :=
      skipWS_not_ws _ _ _ rfl (by decide)
    rw [hsw2] at hsw
    have hr : r = renderFields true kvs ++ ['}'] := by
      injection hsw with h1 h2
      exact h2.symm
    subst hr
    simp only [copyWA]
    rw [hsw2]
    dsimp only
    rw [if_pos rfl]
    obtain ⟨g2, hg2, heq⟩ :=
      (rwLoop_notarget (('{' :: (renderFields true kvs ++ ['}'])).length + 1) a).1
        _ kvs rest hpf hnt true ['{']
        (('{' :: (renderFields true kvs ++ ['}'])).length + 1) (by simp)
    rw [heq, rwLoopF_eof _ _ _ _ _ _ hrest (by omega)]
    simp

/-- C7 witness. -/
theorem C7_no_attachments_doc_part_witness :
    parseTopObject ('{' :: (renderFields true [(['a'], ['1'])] ++ ['}']))
      = some [(['a'], ['1'])] ∧
    (∀ kv ∈ [(['a'], ['1'])], kv.1 ≠ attachmentsKey) ∧
    encodeUploadDocPart ('{' :: (renderFields true [(['a'], ['1'])] ++ ['}']))
        (some ['E'])
      = '{' :: (renderFields true [(['a'], ['1'])] ++ ['}']) :=
  ⟨by decide, by decide,
    C7_no_attachments_doc_part [(['a'], ['1'])] (some ['E']) (by decide) (by decide)⟩

end Couch
